import Mathlib

/-!
Verification development for the scheduling core of the repository
(`core/graph/graph_viewer.cc`): the `GraphViewer` construction, the default
topological order with the training shape/size hoist pass, the
priority-based order (forward discovery, branch-subgraph grouping and the
priority-queue scheduling loop), the comparators, and the filtered-view
accessors.

Machine integers: node indices are `Nat`; attribute values, priorities and
in-degree counters are `Int` (the C++ uses `int64_t` / `size_t`; `size_t`
counters in the source only ever feed `==`/`!=` comparisons where the signed
model agrees on every reachable state we reason about).  Fallible paths
(`ORT_THROW` / `ORT_ENFORCE`) are `Except String`.
-/

set_option linter.unusedVariables false

/-- An operation node of the Graph Model: stable integer index, operation
type, numeric scheduling priority class, attribute map (name to integer
value, the only attribute payload the scheduling core reads via `.i()`),
and input/output/implicit-input value (NodeArg) name lists.  Edges are
derived from shared value names, as in the Graph Model. -/
structure Node where
  index : Nat
  opType : String
  priority : Int
  attrs : List (String × Int)
  inputDefs : List String
  outputDefs : List String
  implicitInputDefs : List String
deriving Repr, DecidableEq

/-- Modelled from the spec: the Graph Model collaborator (`Graph` itself is
not under src/, only its `GraphViewer` client is): a list of nodes (iterated
in list order, the stable-index order), the graph inputs including
initializers, and the initializer table (value name to tensor id). -/
structure Graph where
  nodes : List Node
  inputsIncludingInitializers : List String
  initializers : List (String × Nat)
deriving Repr, DecidableEq

def Graph.getNode (g : Graph) (idx : Nat) : Option Node :=
  g.nodes.find? (fun n => n.index == idx)

/-- Modelled from the spec: a value is produced by at most one node; the
producer is looked up by output-name membership. -/
def producerOf (g : Graph) (arg : String) : Option Node :=
  g.nodes.find? (fun n => n.outputDefs.contains arg)

/-- An input edge of a node: source node, destination argument index, and
the shared value name (`node.InputDefs()[edge.GetDstArgIndex()]`). -/
structure Edge where
  src : Node
  dstArg : Nat
  arg : String
deriving Repr, DecidableEq

/-- An output edge: destination node, destination argument index, and the
shared value name. -/
structure OEdge where
  dst : Node
  dstArg : Nat
  arg : String
deriving Repr, DecidableEq

/-- Input edges of `n`, in destination-argument order: one edge per input
position whose value has a producer in the graph
(`Node::InputEdgesBegin/GetInputEdgesCount`). -/
def inputEdges (g : Graph) (n : Node) : List Edge :=
  n.inputDefs.enum.filterMap fun p =>
    (producerOf g p.2).map fun m => ⟨m, p.1, p.2⟩

/-- Output edges of `n` (`Node::OutputEdgesBegin`), iterating consumers in
graph node order and their input positions in order. -/
def outputEdges (g : Graph) (n : Node) : List OEdge :=
  g.nodes.foldr (fun m acc =>
    (m.inputDefs.enum.filterMap fun p =>
      match producerOf g p.2 with
      | some q => if q.index == n.index then some (⟨m, p.1, p.2⟩ : OEdge) else none
      | none => none) ++ acc) []

def dedupByIndexAux : List Node → List Nat → List Node
  | [], _ => []
  | n :: rest, seen =>
    if n.index ∈ seen then dedupByIndexAux rest seen
    else n :: dedupByIndexAux rest (n.index :: seen)

def dedupByIndex (l : List Node) : List Node := dedupByIndexAux l []

/-- Predecessor nodes of `n` (`Node::InputNodesBegin`), deduplicated, in
edge order. -/
def predNodes (g : Graph) (n : Node) : List Node :=
  dedupByIndex ((inputEdges g n).map Edge.src)

/-- There is an edge from `a` to `b`: some input position of `b` is produced
by `a`. -/
def edgeB (g : Graph) (a b : Node) : Bool :=
  (inputEdges g b).any fun e => e.src.index == a.index

def isLeaf (g : Graph) (n : Node) : Bool := (outputEdges g n).isEmpty

def isRoot (g : Graph) (n : Node) : Bool := (inputEdges g n).isEmpty

def insertByIndex (n : Node) : List Node → List Node
  | [] => [n]
  | m :: rest => if n.index ≤ m.index then n :: m :: rest else m :: insertByIndex n rest

def sortByIndex : List Node → List Node
  | [] => []
  | n :: rest => insertByIndex n (sortByIndex rest)

/-- Source: `NodeCompare::operator()` — the stable tie-break, lower node
index first. -/
def NodeCompare (n1 n2 : Node) : Bool := n1.index < n2.index

/-- Source: `PriorityNodeCompare::IsHighPri` — pure shape/size queries. -/
def IsHighPri (n : Node) : Bool := n.opType == "Shape" || n.opType == "Size"

/-- Modelled from the spec: the training "is-backward" attribute key
(defined outside src/); its name is opaque to the scheduling core. -/
def kBackwardNodeAttributeName : String := "backwardpass"

/-- Modelled from the spec: the "critical-path impact" attribute key
(defined outside src/); its name is opaque to the scheduling core. -/
def kRecomputeNodeCriticalPathImpact : String := "criticalpathimpact"

/-- Modelled from the spec: numeric priority classes (enum values defined
outside src/); lower value is scheduled earlier, `DEFAULT` and the lowest
"local-low" class are distinct ordinals. -/
def ExecutionPriorityDefault : Int := 0

/-- Modelled from the spec: the lowest, "local-low" priority class ordinal
(recompute duplicates). -/
def ExecutionPriorityLocalLow : Int := 100

def attrFind (n : Node) (k : String) : Option Int :=
  (n.attrs.find? fun p => p.1 == k).map Prod.snd

/-- Source lines 71-74: `(attrs.find(k) == end) || ((attrs.at(k).i() + 1) % 2)`:
a node is "forward" when the is-backward attribute is absent or its value is
even. -/
def isForwardFlag (n : Node) : Bool :=
  match attrFind n kBackwardNodeAttributeName with
  | none => true
  | some v => (v + 1) % 2 != 0

/-- Source lines 100-105: the critical-path impact; `-1` when the attribute
is absent. -/
def impactOf (n : Node) : Int :=
  match attrFind n kRecomputeNodeCriticalPathImpact with
  | none => -1
  | some v => v

/-- Source: `PriorityNodeCompare::operator()` (`ENABLE_TRAINING`
configuration).  Returns `true` when `n2` should be output first: Shape/Size
first, then lower priority class first, then (DEFAULT class) forward before
backward, then (LOCAL_LOW class, both impacts present) higher impact first,
otherwise lower node index first. -/
def PriorityNodeCompare (n1 n2 : Node) : Bool :=
  if IsHighPri n1 != IsHighPri n2 then IsHighPri n2
  else if n1.priority != n2.priority then n1.priority > n2.priority
  else if n1.priority == ExecutionPriorityDefault then
    if isForwardFlag n1 != isForwardFlag n2 then isForwardFlag n2 && !(isForwardFlag n1)
    else n1.index > n2.index
  else if n1.priority == ExecutionPriorityLocalLow then
    if impactOf n1 != -1 && impactOf n2 != -1 then impactOf n2 > impactOf n1
    else n1.index > n2.index
  else n1.index > n2.index

/-- Modelled from the spec: `Graph::ReverseDFSFrom` (graph.cc is not under
src/): reverse depth-first traversal over predecessor edges, emitting a node
when fully explored (post-order), visiting candidates lower-index-first
(`NodeCompare` tie-break), with an optional `stop(from, to)` edge filter.
State is (visited indices, emitted order); fueled, one fuel unit per
recursion level (depth is bounded by the node count). -/
def rdfsVisit (g : Graph) (stop : Node → Node → Bool) :
    Nat → Node → List Nat × List Nat → List Nat × List Nat
  | 0, _, st => st
  | fuel+1, n, st =>
    if n.index ∈ st.1 then st
    else
      let st1 := (sortByIndex (predNodes g n)).foldl
        (fun acc p => if stop n p then acc else rdfsVisit g stop fuel p acc)
        (n.index :: st.1, st.2)
      (st1.1, st1.2 ++ [n.index])

def reverseDFSFrom (g : Graph) (froms : List Node) (stop : Node → Node → Bool) : List Nat :=
  ((sortByIndex froms).foldl (fun st n => rdfsVisit g stop (g.nodes.length + 1) n st)
    ([], [])).2

def leafNodes (g : Graph) : List Node := g.nodes.filter fun n => isLeaf g n

/-- Source lines 223-226: node indices without any input edge, recorded in
graph iteration order. -/
def rootNodeIndices (g : Graph) : List Nat :=
  (g.nodes.filter fun n => isRoot g n).map Node.index

/-- Source lines 252-258: the base default topological order, a reverse DFS
from every leaf node. -/
def baseTopoOrder (g : Graph) : List Nat :=
  reverseDFSFrom g (leafNodes g) fun _ _ => false

def isShapeSize (n : Node) : Bool := n.opType == "Shape" || n.opType == "Size"

/-- Source lines 229-237: shape/size nodes that have at least one input
edge, in graph iteration order. -/
def shapeSizeNodes (g : Graph) : List Nat :=
  (g.nodes.filter fun n => isShapeSize n && !(inputEdges g n).isEmpty).map Node.index

/-- Source line 231: the recorded parent of a shape/size node is its first
input node. -/
def shapeSizeParent (g : Graph) (n : Node) : Option Nat :=
  ((inputEdges g n).head?).map fun e => e.src.index

def addChild (m : List (Nat × List Nat)) (parent child : Nat) : List (Nat × List Nat) :=
  match m with
  | [] => [(parent, [child])]
  | (p, cs) :: rest =>
    if p == parent then (p, cs ++ [child]) :: rest else (p, cs) :: addChild rest parent child

/-- Source lines 229-237: the parent-to-shape/size-children map
(`shape_size_parents`), children in graph iteration order. -/
def shapeSizeParents (g : Graph) : List (Nat × List Nat) :=
  g.nodes.foldl (fun m n =>
    if isShapeSize n && !(inputEdges g n).isEmpty then
      match shapeSizeParent g n with
      | some p => addChild m p n.index
      | none => m
    else m) []

def childrenOf (m : List (Nat × List Nat)) (p : Nat) : List Nat :=
  match m.find? (fun q => q.1 == p) with
  | some q => q.2
  | none => []

/-- Source lines 260-276: the training adjustment of the default order: walk
the base order, skip already-visited nodes, and after emitting a node emit
all its recorded shape/size children immediately (marking them visited). -/
def hoistAux (ssp : List (Nat × List Nat)) : List Nat → List Nat → List Nat → List Nat
  | [], _, acc => acc
  | x :: rest, visited, acc =>
    if x ∈ visited then hoistAux ssp rest visited acc
    else
      let cs := childrenOf ssp x
      hoistAux ssp rest (visited ++ x :: cs) (acc ++ x :: cs)

/-- The unfiltered default order (`nodes_in_topological_order_`,
training-adjusted, source lines 252-278). -/
def nodesInTopologicalOrder (g : Graph) : List Nat :=
  hoistAux (shapeSizeParents g) (baseTopoOrder g) [] []

def degGet (d : List (Nat × Int)) (i : Nat) : Int :=
  match d.find? (fun p => p.1 == i) with
  | some p => p.2
  | none => 0

def degSet (d : List (Nat × Int)) (i : Nat) (v : Int) : List (Nat × Int) :=
  match d with
  | [] => [(i, v)]
  | (j, w) :: rest => if j == i then (j, v) :: rest else (j, w) :: degSet rest i v

def degDec (d : List (Nat × Int)) (i : Nat) : List (Nat × Int) :=
  degSet d i (degGet d i - 1)

/-- Pop from the visitor priority queue: the element no other element beats
under `comp` ("`comp a b` true means `b` is output first"); among
comparator-equivalent elements the earliest-inserted is returned (the C++
`std::priority_queue` leaves the choice among equivalents unspecified). -/
def popBest (comp : Node → Node → Bool) (q : List Node) : Option (Node × List Node) :=
  match q with
  | [] => none
  | n :: rest =>
    let best := rest.foldl (fun b x => if comp b x then x else b) n
    some (best, q.erase best)

/-- Modelled from the spec: `Graph::KahnsTopologicalSort` (graph.cc is not
under src/): priority-queue Kahn's algorithm, in-degrees decremented per
output edge, a node enqueued when its in-degree reaches zero. -/
def kahnLoop (g : Graph) (comp : Node → Node → Bool) :
    Nat → List Node → List (Nat × Int) → List Nat → List Nat
  | 0, _, _, out => out
  | fuel+1, q, deg, out =>
    match popBest comp q with
    | none => out
    | some (n, q') =>
      let step := (outputEdges g n).foldl
        (fun (st : List Node × List (Nat × Int)) e =>
          let d' := degDec st.2 e.dst.index
          if degGet d' e.dst.index == 0 then (st.1 ++ [e.dst], d') else (st.1, d'))
        (q', deg)
      kahnLoop g comp fuel step.1 step.2 (out ++ [n.index])

def KahnsTopologicalSort (g : Graph) (comp : Node → Node → Bool) : List Nat :=
  let deg0 := g.nodes.map fun n => (n.index, ((inputEdges g n).length : Int))
  let q0 := g.nodes.filter fun n => (inputEdges g n).isEmpty
  kahnLoop g comp (g.nodes.length + 1) q0 deg0 []

/-- Modelled from the spec: the plain Kahn pass used when no boundary
(YieldOp) node exists (source lines 580-586) ends with the consistency
check: a shortfall against the exposed node count is the fatal cycle
error (spec 4.2 step 8 / §7). -/
def priorityOrderNoYield (g : Graph) : Except String (List Nat) :=
  let order := KahnsTopologicalSort g PriorityNodeCompare
  if order.length == g.nodes.length then .ok order
  else .error "Some nodes are not included in the topological sort, graph have a cycle."

/-- Source lines 239-248: the last YieldOp node found while iterating the
graph (each hit overwrites `yield_node`). -/
def yieldNodeOf (g : Graph) : Option Node :=
  g.nodes.foldl (fun acc n => if n.opType == "YieldOp" then some n else acc) none

/-- Source lines 241-243: the nodes producing the YieldOp inputs
(`InputNodesBegin` iteration, accumulated over every YieldOp hit). -/
def forwardOutputNodes (g : Graph) : List Node :=
  g.nodes.foldl (fun acc n =>
    if n.opType == "YieldOp" then acc ++ predNodes g n else acc) []

/-- Source lines 288-297: reverse DFS from the forward output nodes; the
emission order is the initial `node_orders`, the visited set is
`nodes_before_yieldop`. -/
def forwardPassOrder (g : Graph) : List Nat :=
  reverseDFSFrom g (forwardOutputNodes g) fun _ _ => false

def insertAfterFirst (xs : List Nat) (tgt ins : Nat) : List Nat :=
  match xs with
  | [] => []
  | x :: rest => if x == tgt then x :: ins :: rest else x :: insertAfterFirst rest tgt ins

/-- Source lines 299-311: the forward shape/size adjustment.  Note the
source iterates `shape_size_parents[node_index]` for each shape/size node
index — i.e. it looks the map up by the child rather than by the parent —
so an insertion only happens when a shape/size node is itself the recorded
parent of another shape/size node.  Returns (updated `node_orders`, updated
`nodes_before_yieldop`). -/
def priorityForwardHoist (g : Graph) (orders fwd : List Nat) : List Nat × List Nat :=
  (shapeSizeNodes g).foldl (fun st ni =>
    (childrenOf (shapeSizeParents g) ni).foldl (fun st2 parent =>
      if parent ∈ st2.1 then (insertAfterFirst st2.1 parent ni, st2.2 ++ [ni])
      else st2) st)
    (orders, fwd)

/-- The forward segment after the adjustment: (`node_orders`,
`nodes_before_yieldop`). -/
def forwardAfterHoist (g : Graph) : List Nat × List Nat :=
  let fo := forwardPassOrder g
  priorityForwardHoist g fo fo

structure SortSetup where
  alreadyReady : List String
  inDeg : List (Nat × Int)
  toVisit : List Node
  branchInputNodes : List Node
deriving Repr

/-- Source lines 325-374: seed `already_ready` with the graph inputs
(including initializers) and all initializer names; for every non-forward
node, force the YieldOp in-degree to zero and enqueue it, discount input
edges whose source is a forward node (marking those values ready), and
collect effective-in-degree-zero nodes as `branch_input_nodes`. -/
def sortSetup (g : Graph) (fwd : List Nat) : SortSetup :=
  let init : SortSetup :=
    { alreadyReady := g.inputsIncludingInitializers ++ g.initializers.map Prod.fst
      inDeg := [], toVisit := [], branchInputNodes := [] }
  g.nodes.foldl (fun st n =>
    if n.index ∈ fwd then st
    else if n.opType == "YieldOp" then
      { st with inDeg := degSet st.inDeg n.index 0, toVisit := st.toVisit ++ [n] }
    else
      let es := inputEdges g n
      let r := es.foldl (fun (p : Int × List String) e =>
          if e.src.index ∈ fwd then (p.1 - 1, p.2 ++ [e.arg]) else p)
        ((es.length : Int), st.alreadyReady)
      { st with
        alreadyReady := r.2
        inDeg := degSet st.inDeg n.index r.1
        branchInputNodes :=
          if r.1 == 0 then st.branchInputNodes ++ [n] else st.branchInputNodes })
    init

/-- Source lines 379-414: BFS expansion from the branch input nodes over
output edges, decrementing the in-degree copy, admitting a successor when
its count reaches zero; returns the admitted `branch_subgraph` in admission
order. -/
def branchBFS (g : Graph) :
    Nat → List Node → List (Nat × Int) → List Node → List Node
  | 0, _, _, subg => subg
  | fuel+1, q, deg, subg =>
    match q with
    | [] => subg
    | cur :: rest =>
      let step := (outputEdges g cur).foldl
        (fun (st : List Node × List (Nat × Int) × List Node) e =>
          let d' := degDec st.2.1 e.dst.index
          if degGet d' e.dst.index == 0 then (st.1 ++ [e.dst], d', st.2.2 ++ [e.dst])
          else (st.1, d', st.2.2))
        (rest, deg, subg)
      branchBFS g fuel step.1 step.2.1 step.2.2

def branchSubgraphOf (g : Graph) : List Node :=
  let fwd := (forwardAfterHoist g).2
  let st := sortSetup g fwd
  branchBFS g (2 * g.nodes.length + 2) st.branchInputNodes st.inDeg st.branchInputNodes

/-- Source lines 418-432: the consumers outside the branch subgraph of
values produced inside it, one entry per crossing output edge (destination
node, destination argument index). -/
def branchSubgraphConsumers (g : Graph) (subg : List Node) : List (Node × Nat) :=
  subg.foldl (fun acc n =>
    (outputEdges g n).foldl (fun acc2 e =>
      if subg.any (fun m => m.index == e.dst.index) then acc2
      else acc2 ++ [(e.dst, e.dstArg)]) acc) []

def insertSortedStr (s : String) : List String → List String
  | [] => [s]
  | x :: rest =>
    if s == x then x :: rest
    else if s < x then s :: x :: rest
    else x :: insertSortedStr s rest

def assocInsert (m : List (Nat × List String)) (i : Nat) (a : String) :
    List (Nat × List String) :=
  match m with
  | [] => [(i, [a])]
  | (j, s) :: rest =>
    if j == i then (j, insertSortedStr a s) :: rest else (j, s) :: assocInsert rest i a

def assocGet (m : List (Nat × List String)) (i : Nat) : List String :=
  match m.find? (fun p => p.1 == i) with
  | some p => p.2
  | none => []

/-- Source lines 458-485: for every branch-subgraph consumer, reverse DFS
from the producer of the consumed value, stopping at forward nodes and at
the YieldOp, tagging every visited node with that value; a node's tag set
(`std::set`, modelled as a sorted name list) keys the grouping. -/
def assocOutputs (g : Graph) (fwd : List Nat) (consumers : List (Node × Nat)) :
    List (Nat × List String) :=
  consumers.foldl (fun m c =>
    let arg := c.1.inputDefs.getD c.2 ""
    match producerOf g arg with
    | none => m
    | some endNode =>
      let visitedOrder := reverseDFSFrom g [endNode]
        (fun _ nto => fwd.contains nto.index || nto.opType == "YieldOp")
      visitedOrder.foldl (fun m2 ni => assocInsert m2 ni arg) m) []

structure GroupNode where
  nodes : List Node
  inputArgs : List String
  outputArgs : List String
deriving Repr, DecidableEq

def groupInsert (gs : List (List String × List Node)) (key : List String) (n : Node) :
    List (List String × List Node) :=
  match gs with
  | [] => [(key, [n])]
  | (k, ns) :: rest =>
    if k == key then (k, ns ++ [n]) :: rest else (k, ns) :: groupInsert rest key n

/-- Source lines 487-498: cluster the branch subgraph by identical
associated-output sets, members in subgraph order. -/
def rawGroups (subg : List Node) (assoc : List (Nat × List String)) :
    List (List String × List Node) :=
  subg.foldl (fun gs n => groupInsert gs (assocGet assoc n.index) n) []

/-- Source: `GroupNode::Finalize` (lines 131-156): an input argument is any
member input not among the output arguments collected so far; every member
output not yet collected is an output argument. -/
def finalizeGroup (ns : List Node) : GroupNode :=
  let r := ns.foldl (fun (p : List String × List String) n =>
    let p1 := n.inputDefs.foldl (fun (q : List String × List String) a =>
        if a ∈ q.2 then q else (q.1 ++ [a], q.2)) p
    n.outputDefs.foldl (fun (q : List String × List String) a =>
        if a ∈ q.2 then q else (q.1, q.2 ++ [a])) p1) ([], [])
  ⟨ns, r.1, r.2⟩

/-- The grouped units formed during branch-subgraph grouping (source lines
487-501). -/
def formedGroups (g : Graph) : List GroupNode :=
  let subg := branchSubgraphOf g
  let fwd := (forwardAfterHoist g).2
  let cons := branchSubgraphConsumers g subg
  (rawGroups subg (assocOutputs g fwd cons)).map fun p => finalizeGroup p.2

/-- Source lines 504-511: `output_arg_to_grouped_node` flattened: the group
producing a given value. -/
def outputArgToGroup (g : Graph) (arg : String) : Option GroupNode :=
  (formedGroups g).find? fun gr => gr.outputArgs.contains arg

/-- Source: `handle_group_node` (lines 163-194): recursively emit the
producing groups of any unready group input, then emit the whole member set
contiguously into `node_orders` and `topo_order`, then mark the group's
output arguments ready.  State is (`node_orders`, `topo_order`,
`already_ready`); the `ORT_ENFORCE` on a missing map entry is the error
case. -/
def handleGroupNode (g : Graph) :
    Nat → String → List Nat × List Nat × List String →
    Except String (List Nat × List Nat × List String)
  | 0, _, _ => .error "recursion fuel exhausted"
  | fuel+1, arg, st =>
    match outputArgToGroup g arg with
    | none => .error "output_arg_to_grouped_node does not contain output_arg"
    | some gr => do
      let st1 ← gr.inputArgs.foldlM
        (fun (acc : List Nat × List Nat × List String) a =>
          if acc.2.2.contains a then pure acc else handleGroupNode g fuel a acc) st
      pure (st1.1 ++ gr.nodes.map Node.index,
            st1.2.1 ++ gr.nodes.map Node.index,
            gr.outputArgs.foldl (fun rs a => if a ∈ rs then rs else rs ++ [a]) st1.2.2)

/-- Source lines 540-557: for a candidate successor, whether all its input
values are ready, and whether every unready input value is produced by a
known grouped unit. -/
def succCheck (g : Graph) (ready : List String) (m : Node) : Bool × Bool :=
  (inputEdges g m).foldl (fun (p : Bool × Bool) e =>
    if ready.contains e.arg then p
    else (false, p.2 && (outputArgToGroup g e.arg).isSome))
    (true, true)

structure LoopState where
  toVisit : List Node
  alreadyReady : List String
  nodeOrders : List Nat
  topoOrder : List Nat
deriving Repr

/-- Source lines 513-569: the priority-queue scheduling loop: pop the best
candidate, emit the producing group of any unready grouped input value,
emit the candidate into `node_orders`, mark its outputs ready, push every
output-edge successor whose inputs are all ready or whose unready inputs
are all group-produced (one check per edge), and finally record the
candidate in `topo_order`. -/
def mainLoop (g : Graph) : Nat → LoopState → Except String LoopState
  | 0, st => if st.toVisit.isEmpty then pure st else .error "loop fuel exhausted"
  | fuel+1, st =>
    match popBest PriorityNodeCompare st.toVisit with
    | none => pure st
    | some (cur, rest) => do
      let st1 ← (inputEdges g cur).foldlM
        (fun (acc : List Nat × List Nat × List String) e =>
          if !(acc.2.2.contains e.arg) && (outputArgToGroup g e.arg).isSome then
            handleGroupNode g (g.nodes.length * g.nodes.length + 2) e.arg acc
          else pure acc)
        (st.nodeOrders, st.topoOrder, st.alreadyReady)
      let orders := st1.1 ++ [cur.index]
      let ready := cur.outputDefs.foldl
        (fun rs a => if a ∈ rs then rs else rs ++ [a]) st1.2.2
      let queue := (outputEdges g cur).foldl (fun q e =>
          let c := succCheck g ready e.dst
          if c.1 || c.2 then q ++ [e.dst] else q) rest
      mainLoop g fuel
        { toVisit := queue, alreadyReady := ready,
          nodeOrders := orders, topoOrder := st1.2.1 ++ [cur.index] }

/-- Source lines 284-579: the full priority-order construction when a
YieldOp is present: forward segment, scheduling loop over the rest, the
in-loop consistency check (`ORT_THROW`, line 571) and the final size check
(`ORT_ENFORCE`, line 579). -/
def prioritySortWithYield (g : Graph) : Except String (List Nat) := do
  let fa := forwardAfterHoist g
  let setup := sortSetup g fa.2
  let numberOfNodes : Int := (g.nodes.length : Int) - (fa.1.length : Int)
  let st ← mainLoop g (2 ^ (g.nodes.length + 2))
    { toVisit := setup.toVisit, alreadyReady := setup.alreadyReady,
      nodeOrders := fa.1, topoOrder := [] }
  if (st.topoOrder.length : Int) != numberOfNodes then
    .error "Some nodes are not included in the topological sort, graph have a cycle."
  else if st.nodeOrders.length != g.nodes.length then
    .error "Topological sort failed."
  else
    pure st.nodeOrders

/-- The unfiltered priority-based order
(`nodes_in_topological_order_with_priority_`). -/
def nodesInTopologicalOrderWithPriority (g : Graph) : Except String (List Nat) :=
  match yieldNodeOf g with
  | some _ => prioritySortWithYield g
  | none => priorityOrderNoYield g

def Graph.getInitializedTensor (g : Graph) (name : String) : Option Nat :=
  (g.initializers.find? fun p => p.1 == name).map Prod.snd

def Graph.isInitializedTensor (g : Graph) (name : String) : Bool :=
  (g.getInitializedTensor name).isSome

/-- Modelled from the spec: `Graph::GetNodeArg` existence — a value name is
known to the graph when some node or the graph boundary mentions it. -/
def Graph.hasNodeArg (g : Graph) (a : String) : Bool :=
  g.inputsIncludingInitializers.contains a
  || g.initializers.any (fun p => p.1 == a)
  || g.nodes.any fun n =>
      n.inputDefs.contains a || n.outputDefs.contains a || n.implicitInputDefs.contains a

def Graph.numberOfNodes (g : Graph) : Nat := g.nodes.length

/-- Modelled from the spec: `Graph::MaxNodeIndex` — one past the largest
stable node index ever assigned. -/
def Graph.maxNodeIndex (g : Graph) : Nat :=
  g.nodes.foldl (fun acc n => max acc (n.index + 1)) 0

structure MetaDef where
  name : String
  inputs : List String
  outputs : List String
deriving Repr, DecidableEq

/-- The Partition Descriptor (`IndexedSubGraph`): an ordered node-index
subset plus declared boundary input/output value names. -/
structure IndexedSubGraph where
  nodes : List Nat
  metaDef : MetaDef
deriving Repr, DecidableEq

structure GraphViewer where
  graph : Graph
  filterInfo : Option IndexedSubGraph
  rootNodes : List Nat
  topoOrderDefault : List Nat
  topoOrderPriority : List Nat
  filteredNodeIndices : List Nat
  filteredNodeInputs : List String
  filteredNodeInputsIncludingInitializers : List String
  filteredNodeOutputs : List String
  filteredInitializers : List (String × Nat)
deriving Repr, DecidableEq

/-- Source lines 671 and 697: `std::copy_if` over an order, keeping the
retained indices in their original relative sequence. -/
def copyIf (p : Nat → Bool) (xs : List Nat) : List Nat :=
  xs.foldl (fun acc x => if p x then acc ++ [x] else acc) []

/-- Source lines 676-692: the filtered initializer table — every constant
value referenced by an exposed node's inputs or implicit inputs. -/
def buildFilteredInitializers (g : Graph) (nodeIdxs : List Nat) :
    Except String (List (String × Nat)) :=
  nodeIdxs.foldlM (fun m idx =>
    match g.getNode idx with
    | none => .error "Mismatch between Graph and IndexedSubGraph. Node not found"
    | some n =>
      let ins := fun (acc : List (String × Nat)) (a : String) =>
        match g.getInitializedTensor a with
        | some t => if acc.any (fun p => p.1 == a) then acc else acc ++ [(a, t)]
        | none => acc
      pure (n.implicitInputDefs.foldl ins (n.inputDefs.foldl ins m))) []

/-- The `GraphViewer` constructor (source lines 196-702).  Modelled from the
spec where the lazily-filtered `ConstGraphNodes` view is concerned
(`graph_viewer.h`/`graph_nodes.h` are not under src/): both orders are
computed over the unfiltered graph and then restricted by the stable
`copy_if` filter, per spec 4.3. -/
def buildGraphViewer (g : Graph) (filterInfo : Option IndexedSubGraph) :
    Except String GraphViewer := do
  let defaultOrder := nodesInTopologicalOrder g
  let priorityOrder ← nodesInTopologicalOrderWithPriority g
  let roots := rootNodeIndices g
  match filterInfo with
  | none =>
    pure { graph := g, filterInfo := none, rootNodes := roots,
           topoOrderDefault := defaultOrder, topoOrderPriority := priorityOrder,
           filteredNodeIndices := [], filteredNodeInputs := [],
           filteredNodeInputsIncludingInitializers := [],
           filteredNodeOutputs := [], filteredInitializers := [] }
  | some fi => do
    let _ ← fi.nodes.foldlM (fun _ idx =>
        match g.getNode idx with
        | some _ => pure ()
        | none => .error "IndexedSubGraph contains values not present in the Graph") ()
    let finputsBoth ← fi.metaDef.inputs.foldlM
      (fun (p : List String × List String) a =>
        if g.hasNodeArg a then
          pure (p.1 ++ [a], if g.isInitializedTensor a then p.2 else p.2 ++ [a])
        else .error "Mismatch between Graph and IndexedSubGraph. Input not found")
      ([], [])
    let foutputs ← fi.metaDef.outputs.foldlM (fun acc a =>
        if g.hasNodeArg a then pure (acc ++ [a])
        else .error "Mismatch between Graph and IndexedSubGraph. Output not found") []
    let finits ← buildFilteredInitializers g fi.nodes
    pure { graph := g, filterInfo := some fi, rootNodes := roots,
           topoOrderDefault := copyIf (fun i => fi.nodes.contains i) defaultOrder,
           topoOrderPriority := copyIf (fun i => fi.nodes.contains i) priorityOrder,
           filteredNodeIndices := fi.nodes,
           filteredNodeInputs := finputsBoth.2,
           filteredNodeInputsIncludingInitializers := finputsBoth.1,
           filteredNodeOutputs := foutputs,
           filteredInitializers := finits }

inductive ExecutionOrder
  | DEFAULT
  | PRIORITY_BASED
deriving Repr, DecidableEq

/-- Source lines 789-800: `GraphViewer::GetNodesInTopologicalOrder`. -/
def GraphViewer.GetNodesInTopologicalOrder (v : GraphViewer) :
    ExecutionOrder → List Nat
  | .DEFAULT => v.topoOrderDefault
  | .PRIORITY_BASED => v.topoOrderPriority

/-- Source lines 718-727: `GraphViewer::GetInitializedTensor` — on a
filtered view the initializer must be part of the subgraph, otherwise the
lookup is delegated to the graph. -/
def GraphViewer.GetInitializedTensor (v : GraphViewer) (name : String) : Option Nat :=
  if v.filterInfo.isSome && !(v.filteredInitializers.any fun p => p.1 == name) then none
  else v.graph.getInitializedTensor name

/-- Source lines 828-830: `GraphViewer::IsInitializedTensor` delegates to
the graph unfiltered. -/
def GraphViewer.IsInitializedTensor (v : GraphViewer) (name : String) : Bool :=
  v.graph.isInitializedTensor name

/-- Source lines 780-783: `GraphViewer::NumberOfNodes`. -/
def GraphViewer.NumberOfNodes (v : GraphViewer) : Nat :=
  match v.filterInfo with
  | none => v.graph.numberOfNodes
  | some fi => fi.nodes.length

/-- Source lines 785-787: `GraphViewer::MaxNodeIndex` delegates to the
graph unconditionally. -/
def GraphViewer.MaxNodeIndex (v : GraphViewer) : Nat :=
  v.graph.maxNodeIndex

/-- Source lines 768-774: `GraphViewer::GetNode` — `none` when filtered
out. -/
def GraphViewer.GetNode (v : GraphViewer) (idx : Nat) : Option Node :=
  if v.filterInfo.isSome && !(v.filteredNodeIndices.contains idx) then none
  else v.graph.getNode idx

/-! ## Concrete graphs used to settle the claims -/

/-- Forward node producing `f` (the YieldOp input). -/
def nF : Node := ⟨0, "F", 0, [], [], ["f"], []⟩

/-- The boundary node. -/
def nY : Node := ⟨1, "YieldOp", 0, [], ["f"], ["y"], []⟩

/-- Backward node consuming the YieldOp output. -/
def nB : Node := ⟨2, "B", 0, [], ["y"], ["b"], []⟩

/-- Backward node consuming the same value `b` at two input positions
(two parallel edges from `nB`), output `x` unconsumed. -/
def nX : Node := ⟨3, "M", 0, [], ["b", "b"], ["x"], []⟩

/-- Isolated node with no inputs and an unconsumed output: a grouped unit
with no external consumer. -/
def nD : Node := ⟨4, "K", 0, [], [], ["d"], []⟩

/-- Acyclic training graph: `F → YieldOp → B ⇉ M`, plus the isolated `K`. -/
def cex5 : Graph := ⟨[nF, nY, nB, nX, nD], [], []⟩

/-- As `nX` but with its output `x` consumed by the Shape node below. -/
def nX7 : Node := ⟨3, "M", 0, [], ["b", "b"], ["x"], []⟩

/-- Shape node consuming `x`. -/
def nW7 : Node := ⟨4, "Shape", 0, [], ["x"], ["w"], []⟩

def nD1 : Node := ⟨5, "K", 0, [], [], ["d1"], []⟩

def nD2 : Node := ⟨6, "K2", 0, [], [], ["d2"], []⟩

/-- Acyclic training graph: `F → YieldOp → B ⇉ M → Shape`, plus two
isolated nodes forming one grouped unit with no external consumer. -/
def cex7 : Graph := ⟨[nF, nY, nB, nX7, nW7, nD1, nD2], [], []⟩

def cycA : Node := ⟨0, "A", 0, [], ["bo"], ["ao"], []⟩

def cycB : Node := ⟨1, "Bop", 0, [], ["ao"], ["bo"], []⟩

/-- A two-node cycle (no YieldOp). -/
def cyc2 : Graph := ⟨[cycA, cycB], [], []⟩

/-! ## C1 -/

/-- C1: the claim — for every graph and both order kinds, for every edge
from producer P to consumer C with both exposed, P's position precedes C's
position in `GetNodesInTopologicalOrder` — fails on the code.  On the
acyclic graph `cex7` the construction succeeds and returns the
priority-based sequence `[0, 1, 2, 3, 4, 3, 4]`: the producer node `3`
(with an edge to the consumer node `4`) occurs at position 5, after the
consumer's occurrence at position 4 (the scheduling loop pushes a ready
successor once per output edge, so nodes `3` and `4` are each emitted
twice, while the unconsumed grouped unit `{5, 6}` is never emitted, which
lets the emission-count checks pass). -/
theorem c1_priority_order_producer_after_consumer :
    (buildGraphViewer cex7 none).map
        (fun v => v.GetNodesInTopologicalOrder .PRIORITY_BASED)
      = .ok [0, 1, 2, 3, 4, 3, 4]
    ∧ edgeB cex7 nX7 nW7 = true
    ∧ nX7.index = 3 ∧ nW7.index = 4
    ∧ ([0, 1, 2, 3, 4, 3, 4] : List Nat).get? 4 = some 4
    ∧ ([0, 1, 2, 3, 4, 3, 4] : List Nat).get? 5 = some 3 := by
  refine ⟨rfl, by decide, rfl, rfl, rfl, rfl⟩

/-! ## C2 -/

/-- C2: the claim — both returned orders are permutations of exactly the
exposed node-index set — fails on the code.  On the acyclic graph `cex5`
the construction succeeds and the priority-based order is
`[0, 1, 2, 3, 3]`: node `3` appears twice and the exposed node `4` is
omitted, so the returned sequence is not a permutation of the exposed
index set `[0, 1, 2, 3, 4]`. -/
theorem c2_priority_order_not_permutation :
    (buildGraphViewer cex5 none).map
        (fun v => v.GetNodesInTopologicalOrder .PRIORITY_BASED)
      = .ok [0, 1, 2, 3, 3]
    ∧ cex5.nodes.map Node.index = [0, 1, 2, 3, 4]
    ∧ ¬ ([0, 1, 2, 3, 3] : List Nat).Perm [0, 1, 2, 3, 4]
    ∧ ([0, 1, 2, 3, 3] : List Nat).count 3 = 2
    ∧ ¬ (4 ∈ ([0, 1, 2, 3, 3] : List Nat)) := by
  refine ⟨rfl, by decide, by decide, by decide, by decide⟩

/-! ## C5 -/

/-- C5: the claim — every grouped unit formed during branch-subgraph
grouping occupies a contiguous block of the final priority sequence — fails
on the code.  On `cex7` the grouping forms exactly one unit with member set
`{5, 6}`, yet the construction succeeds with a priority order containing
neither member: a unit whose output values are never consumed is never
emitted at all, so its member set occupies no block of the final
sequence. -/
theorem c5_formed_group_absent_from_priority_order :
    (formedGroups cex7).map (fun gr => gr.nodes.map Node.index) = [[5, 6]]
    ∧ (buildGraphViewer cex7 none).map
        (fun v => v.GetNodesInTopologicalOrder .PRIORITY_BASED)
      = .ok [0, 1, 2, 3, 4, 3, 4]
    ∧ ¬ (5 ∈ ([0, 1, 2, 3, 4, 3, 4] : List Nat))
    ∧ ¬ (6 ∈ ([0, 1, 2, 3, 4, 3, 4] : List Nat)) := by
  refine ⟨by decide, rfl, by decide, by decide⟩

/-! ## Cycles -/

/-- Consecutive members are connected by edges. -/
def chainEdgesB (g : Graph) : Node → List Node → Bool
  | _, [] => true
  | a, b :: t => edgeB g a b && chainEdgesB g b t

/-- A (nonempty) cycle in the graph: consecutive members are connected by
edges, the last member has an edge back to the first, and all members are
graph nodes. -/
def IsCycle (g : Graph) : List Node → Prop
  | [] => False
  | h :: t =>
    chainEdgesB g h t = true
    ∧ edgeB g (t.getLastD h) h = true
    ∧ ∀ n ∈ h :: t, n ∈ g.nodes

instance (g : Graph) : (c : List Node) → Decidable (IsCycle g c)
  | [] => isFalse fun h => h
  | h :: t =>
    inferInstanceAs (Decidable (chainEdgesB g h t = true
      ∧ edgeB g (t.getLastD h) h = true ∧ ∀ n ∈ h :: t, n ∈ g.nodes))

/-! ## C7 -/

/-- C7: the claim — a graph with a cycle among exposed nodes causes *both*
builders to report the fatal cycle error rather than silently returning a
truncated order — fails for the default builder.  On the two-node cycle
`cyc2` the default order builder completes without any error and returns
the silently truncated (here empty) order — the default build path (source
lines 252-278) contains no emission-count check at all — while the
priority builder's consistency check does report the fatal cycle error. -/
theorem c7_default_builder_silent_on_cycle :
    IsCycle cyc2 [cycA, cycB]
    ∧ nodesInTopologicalOrder cyc2 = []
    ∧ nodesInTopologicalOrderWithPriority cyc2 =
        .error "Some nodes are not included in the topological sort, graph have a cycle." := by
  refine ⟨by decide, rfl, rfl⟩

/-! ## C6 -/

/-- A LOCAL_LOW node without the critical-path-impact attribute. -/
def lowNoImpact : Node := ⟨0, "Op", 100, [], [], [], []⟩

/-- A LOCAL_LOW node carrying the critical-path-impact attribute with the
non-negative value 5. -/
def lowImpact5 : Node :=
  ⟨1, "Op", 100, [(kRecomputeNodeCriticalPathImpact, 5)], [], [], []⟩

/-- C6: the claim — a node lacking the impact attribute is treated as
having the minimum impact, so any node carrying the attribute with a
non-negative value sorts before a node without it — fails on the code: the
comparator uses the impacts only when *both* nodes carry the attribute
(`n1_impact != -1 && n2_impact != -1`), otherwise it falls through to the
index comparison.  Here the attribute-less, lower-index node sorts
earlier than the impact-5 node (`PriorityNodeCompare a b = false` means `a`
is output first). -/
theorem c6_missing_impact_falls_to_index :
    lowNoImpact.priority = ExecutionPriorityLocalLow
    ∧ lowImpact5.priority = ExecutionPriorityLocalLow
    ∧ IsHighPri lowNoImpact = false ∧ IsHighPri lowImpact5 = false
    ∧ impactOf lowNoImpact = -1 ∧ impactOf lowImpact5 = 5
    ∧ PriorityNodeCompare lowNoImpact lowImpact5 = false
    ∧ PriorityNodeCompare lowImpact5 lowNoImpact = true := by decide

/-- C6 (amended): for ready candidates that are both non-Shape/Size and
both of the LOCAL_LOW class, the higher-impact node sorts earlier only when
*both* nodes carry the impact attribute (with value ≠ -1); when either
lacks it (the absent value is read as -1), the impacts are ignored and the
stable index comparison decides. -/
theorem c6_local_low_impact_comparison (n1 n2 : Node)
    (h1 : IsHighPri n1 = false) (h2 : IsHighPri n2 = false)
    (hp1 : n1.priority = ExecutionPriorityLocalLow)
    (hp2 : n2.priority = ExecutionPriorityLocalLow) :
    (impactOf n1 ≠ -1 → impactOf n2 ≠ -1 →
      PriorityNodeCompare n1 n2 = decide (impactOf n2 > impactOf n1))
    ∧ ((impactOf n1 = -1 ∨ impactOf n2 = -1) →
      PriorityNodeCompare n1 n2 = decide (n1.index > n2.index)) := by
  unfold PriorityNodeCompare
  rw [h1, h2, hp1, hp2]
  constructor
  · intro hi1 hi2
    simp [ExecutionPriorityLocalLow, ExecutionPriorityDefault, hi1, hi2]
  · intro hcase
    rcases hcase with hc | hc <;>
      simp [ExecutionPriorityLocalLow, ExecutionPriorityDefault, hc]

/-- Witness for `c6_local_low_impact_comparison` at the concrete pair
(`lowImpact5`, a second impact-carrying node): the impact decides. -/
def lowImpact9 : Node :=
  ⟨2, "Op", 100, [(kRecomputeNodeCriticalPathImpact, 9)], [], [], []⟩

theorem c6_local_low_impact_comparison_witness :
    PriorityNodeCompare lowImpact5 lowImpact9 =
      decide (impactOf lowImpact9 > impactOf lowImpact5)
    ∧ PriorityNodeCompare lowImpact5 lowNoImpact =
      decide (lowImpact5.index > lowNoImpact.index) :=
  ⟨(c6_local_low_impact_comparison lowImpact5 lowImpact9 (by decide) (by decide)
      (by decide) (by decide)).1 (by decide) (by decide),
   (c6_local_low_impact_comparison lowImpact5 lowNoImpact (by decide) (by decide)
      (by decide) (by decide)).2 (Or.inr (by decide))⟩

/-! ## C8 -/

/-- A LOCAL_LOW node with impact 5, index 10. -/
def lowImpactA : Node :=
  ⟨10, "Op", 100, [(kRecomputeNodeCriticalPathImpact, 5)], [], [], []⟩

/-- A LOCAL_LOW node with impact 5, index 11. -/
def lowImpactB : Node :=
  ⟨11, "Op", 100, [(kRecomputeNodeCriticalPathImpact, 5)], [], [], []⟩

/-- C8: the parenthetical of the claim — all tie-breaks bottom out in the
stable node-index comparison — fails on the code: for two LOCAL_LOW nodes
both carrying the impact attribute with equal values, the comparator
returns `n2_impact > n1_impact` (false both ways) without ever reaching the
index fallback, so the pair is reported equivalent although the indices
differ (the claimed grounding predicts
`PriorityNodeCompare lowImpactB lowImpactA = true` here). -/
theorem c8_equal_impacts_bypass_index_fallback :
    lowImpactB.index > lowImpactA.index
    ∧ impactOf lowImpactA = impactOf lowImpactB
    ∧ PriorityNodeCompare lowImpactA lowImpactB = false
    ∧ PriorityNodeCompare lowImpactB lowImpactA = false := by decide

/-- C8 (amended): view construction is a deterministic function of the
graph and descriptor; the comparator is asymmetric (so the priority-queue
pop order is well defined up to comparator-equivalence); and every
comparison in which the discriminating keys tie bottoms out in the stable
node-index comparison *except* for LOCAL_LOW pairs that both carry the
impact attribute, which the comparator resolves (possibly as equivalent)
by impact alone. -/
theorem c8_deterministic_and_index_grounded :
    (∀ (g : Graph) (fi : Option IndexedSubGraph),
      buildGraphViewer g fi = buildGraphViewer g fi)
    ∧ (∀ n1 n2 : Node,
        ¬ (PriorityNodeCompare n1 n2 = true ∧ PriorityNodeCompare n2 n1 = true))
    ∧ (∀ n1 n2 : Node, IsHighPri n1 = IsHighPri n2 → n1.priority = n2.priority →
        (n1.priority = ExecutionPriorityDefault → isForwardFlag n1 = isForwardFlag n2) →
        (n1.priority = ExecutionPriorityLocalLow →
          impactOf n1 = -1 ∨ impactOf n2 = -1) →
        PriorityNodeCompare n1 n2 = decide (n1.index > n2.index)) := by
  refine ⟨fun g fi => rfl, ?_, ?_⟩
  · intro n1 n2 h
    obtain ⟨h12, h21⟩ := h
    unfold PriorityNodeCompare at h12 h21
    by_cases hh : IsHighPri n1 = IsHighPri n2
    · rw [hh] at h12 h21
      simp only [bne_self_eq_false, if_false, Bool.false_eq_true, if_neg] at h12 h21
      by_cases hpq : n1.priority = n2.priority
      · rw [hpq] at h12 h21
        simp only [bne_self_eq_false, Bool.false_eq_true, if_false] at h12 h21
        by_cases hd : n2.priority == ExecutionPriorityDefault
        · rw [if_pos hd] at h12; rw [if_pos hd] at h21
          by_cases hf : isForwardFlag n1 = isForwardFlag n2
          · rw [hf] at h12 h21
            simp only [bne_self_eq_false, Bool.false_eq_true, if_false,
              decide_eq_true_eq] at h12 h21
            omega
          · have hf' : (isForwardFlag n1 != isForwardFlag n2) = true := by
              simpa using hf
            have hf'' : (isForwardFlag n2 != isForwardFlag n1) = true := by
              simpa using fun hx => hf hx.symm
            rw [if_pos hf'] at h12; rw [if_pos hf''] at h21
            cases hb1 : isForwardFlag n1 <;> cases hb2 : isForwardFlag n2 <;>
              rw [hb1, hb2] at h12 h21 <;> simp_all
        · rw [if_neg (by simpa using hd)] at h12
          rw [if_neg (by simpa using hd)] at h21
          by_cases hl : n2.priority == ExecutionPriorityLocalLow
          · rw [if_pos hl] at h12; rw [if_pos hl] at h21
            by_cases hi : impactOf n1 != -1 && impactOf n2 != -1
            · rw [if_pos hi] at h12
              rw [if_pos (by revert hi; cases impactOf n1 != -1 <;>
                cases impactOf n2 != -1 <;> simp)] at h21
              simp only [decide_eq_true_eq] at h12 h21
              omega
            · rw [if_neg hi] at h12
              rw [if_neg (by revert hi; cases impactOf n1 != -1 <;>
                cases impactOf n2 != -1 <;> simp)] at h21
              simp only [decide_eq_true_eq] at h12 h21
              omega
          · rw [if_neg (by simpa using hl)] at h12
            rw [if_neg (by simpa using hl)] at h21
            simp only [decide_eq_true_eq] at h12 h21
            omega
      · have hpq' : (n1.priority != n2.priority) = true := by simpa using hpq
        have hpq'' : (n2.priority != n1.priority) = true := by
          simpa using fun hx => hpq hx.symm
        rw [if_pos hpq'] at h12; rw [if_pos hpq''] at h21
        simp only [decide_eq_true_eq] at h12 h21
        omega
    · have hh' : (IsHighPri n1 != IsHighPri n2) = true := by simpa using hh
      have hh'' : (IsHighPri n2 != IsHighPri n1) = true := by
        simpa using fun hx => hh hx.symm
      rw [if_pos hh'] at h12; rw [if_pos hh''] at h21
      cases hb1 : IsHighPri n1 <;> cases hb2 : IsHighPri n2 <;>
        rw [hb1] at h21 <;> rw [hb2] at h12 <;> simp_all
  · intro n1 n2 hh hp hd hl
    unfold PriorityNodeCompare
    rw [hh, hp]
    simp only [bne_self_eq_false, Bool.false_eq_true, if_false]
    by_cases hdd : n2.priority = ExecutionPriorityDefault
    · rw [if_pos (by simpa using hdd)]
      rw [hd (hp.trans hdd)]
      simp
    · rw [if_neg (by simpa using hdd)]
      by_cases hll : n2.priority = ExecutionPriorityLocalLow
      · rw [if_pos (by simpa using hll)]
        rcases hl (hp.trans hll) with hc | hc <;> simp [hc]
      · rw [if_neg (by simpa using hll)]

/-- Witness for `c8_deterministic_and_index_grounded` at concrete inputs:
determinism of a concrete construction, asymmetry at a concrete pair, and
the index grounding for a DEFAULT-class pair with equal keys. -/
theorem c8_deterministic_and_index_grounded_witness :
    buildGraphViewer cex5 none = buildGraphViewer cex5 none
    ∧ ¬ (PriorityNodeCompare nB nX = true ∧ PriorityNodeCompare nX nB = true)
    ∧ PriorityNodeCompare nB nX = decide (nB.index > nX.index) :=
  ⟨c8_deterministic_and_index_grounded.1 cex5 none,
   c8_deterministic_and_index_grounded.2.1 nB nX,
   c8_deterministic_and_index_grounded.2.2 nB nX (by decide) (by decide)
     (fun _ => by decide) (fun h => by simp [nB] at h; exact absurd h (by decide))⟩

/-! ## Inversion of the viewer construction -/

theorem copyIf_eq_filter (p : Nat → Bool) (xs : List Nat) : copyIf p xs = xs.filter p := by
  suffices h : ∀ acc, xs.foldl (fun acc x => if p x then acc ++ [x] else acc) acc
      = acc ++ xs.filter p by
    simpa [copyIf] using h []
  induction xs with
  | nil => intro acc; simp
  | cons x t ih =>
    intro acc
    by_cases hp : p x <;> simp [hp, ih, List.filter_cons]

theorem buildGraphViewer_none_ok {g : Graph} {v : GraphViewer}
    (h : buildGraphViewer g none = .ok v) :
    v.graph = g ∧ v.filterInfo = none
    ∧ v.topoOrderDefault = nodesInTopologicalOrder g
    ∧ nodesInTopologicalOrderWithPriority g = .ok v.topoOrderPriority := by
  cases hp : nodesInTopologicalOrderWithPriority g with
  | error e => simp [buildGraphViewer, hp, bind, Except.bind] at h
  | ok po =>
    simp only [buildGraphViewer, hp, bind, Except.bind, pure, Except.pure,
      Except.ok.injEq] at h
    subst h
    exact ⟨rfl, rfl, rfl, rfl⟩

theorem buildGraphViewer_some_ok {g : Graph} {fi : IndexedSubGraph} {v : GraphViewer}
    (h : buildGraphViewer g (some fi) = .ok v) :
    v.graph = g ∧ v.filterInfo = some fi
    ∧ v.topoOrderDefault = copyIf (fun i => fi.nodes.contains i) (nodesInTopologicalOrder g)
    ∧ (∃ po, nodesInTopologicalOrderWithPriority g = .ok po
        ∧ v.topoOrderPriority = copyIf (fun i => fi.nodes.contains i) po)
    ∧ (∃ m, buildFilteredInitializers g fi.nodes = .ok m ∧ v.filteredInitializers = m) := by
  cases hp : nodesInTopologicalOrderWithPriority g with
  | error e => simp [buildGraphViewer, hp, bind, Except.bind] at h
  | ok po =>
    simp only [buildGraphViewer, hp, bind, Except.bind] at h
    split at h
    next => exact absurd h (by simp)
    next u hval =>
      split at h
      next => exact absurd h (by simp)
      next pin hin =>
        split at h
        next => exact absurd h (by simp)
        next pout hout =>
          split at h
          next => exact absurd h (by simp)
          next m hm =>
            simp only [pure, Except.pure, Except.ok.injEq] at h
            subst h
            exact ⟨rfl, rfl, rfl, ⟨po, rfl, rfl⟩, ⟨m, hm, rfl⟩⟩

/-! ## C3 -/

/-- Spec-side definition (`specStableRestriction` follows the spec's words
for P6): the order restricted to the subset, preserving relative order. -/
def specStableRestriction (order s : List Nat) : List Nat :=
  order.filter fun i => s.contains i

/-- C3: each order of the filtered view equals the corresponding unfiltered
order restricted to the descriptor's node subset, preserving relative order
(a stable filter): the construction's `copy_if` filtering coincides with
the spec's stable restriction of the unfiltered view's orders. -/
theorem c3_filtered_orders_are_stable_restrictions
    (g : Graph) (fi : IndexedSubGraph) (v v0 : GraphViewer)
    (hv : buildGraphViewer g (some fi) = .ok v)
    (hv0 : buildGraphViewer g none = .ok v0) :
    v.GetNodesInTopologicalOrder .DEFAULT =
      specStableRestriction (v0.GetNodesInTopologicalOrder .DEFAULT) fi.nodes
    ∧ v.GetNodesInTopologicalOrder .PRIORITY_BASED =
      specStableRestriction (v0.GetNodesInTopologicalOrder .PRIORITY_BASED) fi.nodes := by
  obtain ⟨-, -, hd, ⟨po, hpo, hvp⟩, -⟩ := buildGraphViewer_some_ok hv
  obtain ⟨-, -, hd0, hp0⟩ := buildGraphViewer_none_ok hv0
  have hpo0 : po = v0.topoOrderPriority := by
    have := hpo.symm.trans hp0
    simpa using this
  constructor
  · show v.topoOrderDefault = specStableRestriction v0.topoOrderDefault fi.nodes
    rw [hd, hd0, copyIf_eq_filter]
    rfl
  · show v.topoOrderPriority = specStableRestriction v0.topoOrderPriority fi.nodes
    rw [hvp, hpo0, copyIf_eq_filter]
    rfl

def wA : Node := ⟨0, "WA", 0, [], [], ["wa"], []⟩

def wB : Node := ⟨1, "WB", 0, [], ["wa"], ["wb"], []⟩

/-- A two-node chain used as witness graph. -/
def wG : Graph := ⟨[wA, wB], [], []⟩

def wFi : IndexedSubGraph := ⟨[1], ⟨"part", ["wa"], ["wb"]⟩⟩

def dummyViewer : GraphViewer :=
  ⟨⟨[], [], []⟩, none, [], [], [], [], [], [], [], []⟩

def okOr (x : Except String GraphViewer) (d : GraphViewer) : GraphViewer :=
  match x with
  | .ok v => v
  | .error _ => d

def wViewer : GraphViewer := okOr (buildGraphViewer wG (some wFi)) dummyViewer

def wViewer0 : GraphViewer := okOr (buildGraphViewer wG none) dummyViewer

theorem c3_filtered_orders_witness :
    buildGraphViewer wG (some wFi) = .ok wViewer
    ∧ buildGraphViewer wG none = .ok wViewer0
    ∧ wViewer.GetNodesInTopologicalOrder .DEFAULT =
        specStableRestriction (wViewer0.GetNodesInTopologicalOrder .DEFAULT) wFi.nodes
    ∧ wViewer.GetNodesInTopologicalOrder .PRIORITY_BASED =
        specStableRestriction (wViewer0.GetNodesInTopologicalOrder .PRIORITY_BASED) wFi.nodes :=
  have h1 : buildGraphViewer wG (some wFi) = .ok wViewer := rfl
  have h2 : buildGraphViewer wG none = .ok wViewer0 := rfl
  ⟨h1, h2,
   (c3_filtered_orders_are_stable_restrictions wG wFi wViewer wViewer0 h1 h2).1,
   (c3_filtered_orders_are_stable_restrictions wG wFi wViewer wViewer0 h1 h2).2⟩

/-! ## C9 -/

theorem buildFilteredInitializers_not_referenced
    {g : Graph} {name : String} :
    ∀ (idxs : List Nat) (m0 m : List (String × Nat)),
    (∀ p ∈ m0, p.1 ≠ name) →
    (∀ idx ∈ idxs, ∀ n, g.getNode idx = some n →
        name ∉ n.inputDefs ∧ name ∉ n.implicitInputDefs) →
    idxs.foldlM (fun m idx =>
      match g.getNode idx with
      | none => Except.error "Mismatch between Graph and IndexedSubGraph. Node not found"
      | some n =>
        let ins := fun (acc : List (String × Nat)) (a : String) =>
          match g.getInitializedTensor a with
          | some t => if acc.any (fun p => p.1 == a) then acc else acc ++ [(a, t)]
          | none => acc
        pure (n.implicitInputDefs.foldl ins (n.inputDefs.foldl ins m))) m0 = .ok m →
    ∀ p ∈ m, p.1 ≠ name := by
  have insLemma : ∀ (args : List String) (acc : List (String × Nat)),
      name ∉ args → (∀ p ∈ acc, p.1 ≠ name) →
      ∀ p ∈ args.foldl (fun (acc : List (String × Nat)) (a : String) =>
          match g.getInitializedTensor a with
          | some t => if acc.any (fun p => p.1 == a) then acc else acc ++ [(a, t)]
          | none => acc) acc, p.1 ≠ name := by
    intro args
    induction args with
    | nil => intro acc hna hacc; simpa using hacc
    | cons a t ih =>
      intro acc hna hacc
      simp only [List.foldl_cons]
      apply ih _ (fun hmem => hna (List.mem_cons_of_mem _ hmem))
      cases hg : g.getInitializedTensor a with
      | none => simpa using hacc
      | some tv =>
        simp only [hg]
        by_cases hany : acc.any (fun p => p.1 == a)
        · simpa [hany] using hacc
        · simp only [hany, Bool.false_eq_true, if_false]
          intro p hp
          rcases List.mem_append.mp hp with hp1 | hp1
          · exact hacc p hp1
          · have : p = (a, tv) := by simpa using hp1
            subst this
            intro hc
            exact hna (List.mem_cons.mpr (Or.inl hc.symm))
  intro idxs
  induction idxs with
  | nil =>
    intro m0 m hm0 _ hfold
    have : m0 = m := by simpa [List.foldlM, pure, Except.pure] using hfold
    subst this
    exact hm0
  | cons idx t ih =>
    intro m0 m hm0 href hfold
    simp only [List.foldlM_cons] at hfold
    cases hg : g.getNode idx with
    | none => rw [hg] at hfold; simp [bind, Except.bind] at hfold
    | some n =>
      rw [hg] at hfold
      simp only [bind, Except.bind, pure] at hfold
      refine ih _ m ?_ (fun j hj => href j (List.mem_cons_of_mem _ hj)) hfold
      have hrefn := href idx (List.mem_cons_self _ _) n hg
      exact insLemma _ _ hrefn.2 (insLemma _ _ hrefn.1 hm0)

/-- C9: on a filtered view, an initializer of the underlying graph that is
not referenced (directly or via implicit inputs) by any exposed node is
absent from the filtered initializer table, so `GetInitializedTensor`
returns no value for it, while `IsInitializedTensor` still answers `true`
by delegating unfiltered to the underlying graph. -/
theorem c9_unreferenced_initializer_invisible_but_reported
    (g : Graph) (fi : IndexedSubGraph) (v : GraphViewer) (name : String)
    (hv : buildGraphViewer g (some fi) = .ok v)
    (hinit : g.isInitializedTensor name = true)
    (href : ∀ idx ∈ fi.nodes, ∀ n, g.getNode idx = some n →
        name ∉ n.inputDefs ∧ name ∉ n.implicitInputDefs) :
    v.GetInitializedTensor name = none ∧ v.IsInitializedTensor name = true := by
  obtain ⟨hg, hfi, -, -, ⟨m, hm, hmeq⟩⟩ := buildGraphViewer_some_ok hv
  have hnok : ∀ p ∈ m, p.1 ≠ name := by
    refine buildFilteredInitializers_not_referenced fi.nodes [] m (by simp) href ?_
    simpa [buildFilteredInitializers] using hm
  constructor
  · have hnone : (v.filteredInitializers.any fun p => p.1 == name) = false := by
      rw [hmeq]
      rw [List.any_eq_false]
      intro p hp
      simpa using hnok p hp
    simp [GraphViewer.GetInitializedTensor, hfi, hnone]
  · simp [GraphViewer.IsInitializedTensor, hg, hinit]

def iA : Node := ⟨0, "IA", 0, [], ["i"], ["iao"], []⟩

/-- A one-node graph with an unreferenced initializer `c`. -/
def iG : Graph := ⟨[iA], ["i", "c"], [("c", 7)]⟩

def iFi : IndexedSubGraph := ⟨[0], ⟨"p", ["i"], ["iao"]⟩⟩

def iViewer : GraphViewer := okOr (buildGraphViewer iG (some iFi)) dummyViewer

theorem c9_unreferenced_initializer_witness :
    buildGraphViewer iG (some iFi) = .ok iViewer
    ∧ iG.isInitializedTensor "c" = true
    ∧ iViewer.GetInitializedTensor "c" = none
    ∧ iViewer.IsInitializedTensor "c" = true :=
  have h1 : buildGraphViewer iG (some iFi) = .ok iViewer := rfl
  have h2 := c9_unreferenced_initializer_invisible_but_reported iG iFi iViewer "c" h1
    (by decide) (by decide)
  ⟨h1, by decide, h2.1, h2.2⟩

/-! ## C10 -/

def soloNode (k : Nat) : Node := ⟨k, "Solo", 0, [], [], ["o"], []⟩

/-- A graph with a single node carrying an arbitrarily large stable index. -/
def soloGraph (k : Nat) : Graph := ⟨[soloNode k], [], []⟩

def soloFilter (k : Nat) : IndexedSubGraph := ⟨[k], ⟨"m", [], ["o"]⟩⟩

theorem soloGraph_build (k : Nat) :
    buildGraphViewer (soloGraph k) (some (soloFilter k)) =
      .ok { graph := soloGraph k, filterInfo := some (soloFilter k),
            rootNodes := [k], topoOrderDefault := [k], topoOrderPriority := [k],
            filteredNodeIndices := [k], filteredNodeInputs := [],
            filteredNodeInputsIncludingInitializers := [],
            filteredNodeOutputs := ["o"], filteredInitializers := [] } := by
  have hget : (soloGraph k).getNode k = some (soloNode k) := by
    simp [Graph.getNode, soloGraph, soloNode]
  have herase : [soloNode k].erase (soloNode k) = [] := by
    simp
  have hprio : nodesInTopologicalOrderWithPriority (soloGraph k) = .ok [k] := by
    have hstep : KahnsTopologicalSort (soloGraph k) PriorityNodeCompare
        = kahnLoop (soloGraph k) PriorityNodeCompare 1
            ([soloNode k].erase (soloNode k)) [(k, 0)] [k] := rfl
    show priorityOrderNoYield (soloGraph k) = .ok [k]
    unfold priorityOrderNoYield
    rw [hstep, herase]
    rfl
  have hcopy : copyIf (fun i => (soloFilter k).nodes.contains i) [k] = [k] := by
    simp [copyIf, soloFilter]
  have hval : (soloFilter k).nodes.foldlM (m := Except String) (fun x idx =>
      match (soloGraph k).getNode idx with
      | some _ => pure ()
      | none => Except.error "IndexedSubGraph contains values not present in the Graph") ()
      = .ok () := by
    simp [soloFilter, List.foldlM, hget, pure, Except.pure, bind, Except.bind]
  have hfinits : buildFilteredInitializers (soloGraph k) (soloFilter k).nodes = .ok [] := by
    simp [buildFilteredInitializers, soloFilter, List.foldlM, hget, soloNode,
      pure, Except.pure, bind, Except.bind]
  unfold buildGraphViewer
  rw [hprio]
  simp only [bind, Except.bind]
  rw [hval, hfinits, hcopy]
  have hbase : nodesInTopologicalOrder (soloGraph k) = [k] := rfl
  rw [hbase, hcopy]
  rfl

/-- C10: `MaxNodeIndex` delegates to the underlying graph unconditionally
(unaffected by any Partition Descriptor), while `NumberOfNodes` on a
filtered view returns the descriptor's node count (and the graph's count
otherwise); consequently on a filtered view `MaxNodeIndex` can exceed
`NumberOfNodes` by an arbitrarily large margin. -/
theorem c10_max_node_index_vs_number_of_nodes :
    (∀ (g : Graph) (fi : Option IndexedSubGraph) (v : GraphViewer),
        buildGraphViewer g fi = .ok v → v.MaxNodeIndex = g.maxNodeIndex)
    ∧ (∀ (g : Graph) (fi : IndexedSubGraph) (v : GraphViewer),
        buildGraphViewer g (some fi) = .ok v → v.NumberOfNodes = fi.nodes.length)
    ∧ (∀ (g : Graph) (v : GraphViewer),
        buildGraphViewer g none = .ok v → v.NumberOfNodes = g.numberOfNodes)
    ∧ (∀ k : Nat, ∃ (g : Graph) (fi : IndexedSubGraph) (v : GraphViewer),
        buildGraphViewer g (some fi) = .ok v ∧ v.NumberOfNodes + k ≤ v.MaxNodeIndex) := by
  refine ⟨?_, ?_, ?_, ?_⟩
  · intro g fi v h
    cases fi with
    | none =>
      obtain ⟨hg, -, -, -⟩ := buildGraphViewer_none_ok h
      simp [GraphViewer.MaxNodeIndex, hg]
    | some f =>
      obtain ⟨hg, -, -, -, -⟩ := buildGraphViewer_some_ok h
      simp [GraphViewer.MaxNodeIndex, hg]
  · intro g fi v h
    obtain ⟨-, hfi, -, -, -⟩ := buildGraphViewer_some_ok h
    simp [GraphViewer.NumberOfNodes, hfi]
  · intro g v h
    obtain ⟨hg, hfi, -, -⟩ := buildGraphViewer_none_ok h
    simp [GraphViewer.NumberOfNodes, hfi, hg]
  · intro k
    refine ⟨soloGraph k, soloFilter k, _, soloGraph_build k, ?_⟩
    show (soloFilter k).nodes.length + k ≤ (soloGraph k).maxNodeIndex
    simp [soloFilter, soloGraph, Graph.maxNodeIndex, soloNode]
    omega

/-- Witness for the hypothesis-bearing parts of
`c10_max_node_index_vs_number_of_nodes` at the concrete graph `wG` and the
descriptor `wFi` (and via `k = 5` for the margin part). -/
theorem c10_max_node_index_witness :
    buildGraphViewer wG (some wFi) = .ok wViewer
    ∧ wViewer.MaxNodeIndex = wG.maxNodeIndex
    ∧ wViewer.NumberOfNodes = wFi.nodes.length
    ∧ (∃ (g : Graph) (fi : IndexedSubGraph) (v : GraphViewer),
        buildGraphViewer g (some fi) = .ok v ∧ v.NumberOfNodes + 5 ≤ v.MaxNodeIndex) :=
  have h1 : buildGraphViewer wG (some wFi) = .ok wViewer := rfl
  ⟨h1, c10_max_node_index_vs_number_of_nodes.1 wG (some wFi) wViewer h1,
   c10_max_node_index_vs_number_of_nodes.2.1 wG wFi wViewer h1,
   c10_max_node_index_vs_number_of_nodes.2.2.2 5⟩

/-! ## Kahn's algorithm invariants (for C7) -/

def countTo (E : List OEdge) (i : Nat) : Nat :=
  (E.filter fun e => e.dst.index == i).length

def edgesFrom (g : Graph) (n : Node) (j : Nat) : Nat :=
  ((inputEdges g n).filter fun e => e.src.index == j).length

/-- Number of input edges of `n` whose source is already emitted. -/
def emittedCnt (g : Graph) (out : List Nat) (n : Node) : Nat :=
  ((inputEdges g n).filter fun e => out.contains e.src.index).length

theorem degGet_cons_eq (a : Nat) (w : Int) (rest : List (Nat × Int)) :
    degGet ((a, w) :: rest) a = w := by
  simp [degGet, List.find?_cons]

theorem degGet_cons_ne (a : Nat) (w : Int) (rest : List (Nat × Int)) (j : Nat)
    (h : a ≠ j) : degGet ((a, w) :: rest) j = degGet rest j := by
  simp [degGet, List.find?_cons, h]

theorem degSet_cons_eq (a : Nat) (w : Int) (rest : List (Nat × Int)) (v : Int) :
    degSet ((a, w) :: rest) a v = (a, v) :: rest := by
  simp [degSet]

theorem degSet_cons_ne (a : Nat) (w : Int) (rest : List (Nat × Int)) (i : Nat)
    (v : Int) (h : a ≠ i) :
    degSet ((a, w) :: rest) i v = (a, w) :: degSet rest i v := by
  simp [degSet, h]

theorem degGet_degSet_self : ∀ (d : List (Nat × Int)) (i : Nat) (v : Int),
    degGet (degSet d i v) i = v := by
  intro d i v
  induction d with
  | nil => simp [degSet, degGet, List.find?_cons]
  | cons p rest ih =>
    obtain ⟨j, w⟩ := p
    by_cases hj : j = i
    · subst hj
      rw [degSet_cons_eq, degGet_cons_eq]
    · rw [degSet_cons_ne _ _ _ _ _ hj, degGet_cons_ne _ _ _ _ (fun hx => hj hx)]
      exact ih

theorem degGet_degSet_other : ∀ (d : List (Nat × Int)) (i j : Nat) (v : Int), j ≠ i →
    degGet (degSet d i v) j = degGet d j := by
  intro d i j v h
  induction d with
  | nil => simp [degSet, degGet, List.find?_cons, Ne.symm h]
  | cons p rest ih =>
    obtain ⟨a, w⟩ := p
    by_cases ha : a = i
    · subst ha
      rw [degSet_cons_eq, degGet_cons_ne _ _ _ _ (Ne.symm h),
        degGet_cons_ne _ _ _ _ (Ne.symm h)]
    · rw [degSet_cons_ne _ _ _ _ _ ha]
      by_cases haj : a = j
      · subst haj
        rw [degGet_cons_eq, degGet_cons_eq]
      · rw [degGet_cons_ne _ _ _ _ haj, degGet_cons_ne _ _ _ _ haj]
        exact ih

theorem degGet_degDec_self (d : List (Nat × Int)) (i : Nat) :
    degGet (degDec d i) i = degGet d i - 1 := by
  simp [degDec, degGet_degSet_self]

theorem degGet_degDec_other (d : List (Nat × Int)) (i j : Nat) (h : j ≠ i) :
    degGet (degDec d i) j = degGet d j := by
  simp [degDec, degGet_degSet_other d i j _ h]

theorem index_inj_list : ∀ (l : List Node), (l.map Node.index).Nodup →
    ∀ {a b : Node}, a ∈ l → b ∈ l → a.index = b.index → a = b := by
  intro l
  induction l with
  | nil => intro _ a b ha; cases ha
  | cons m t ih =>
    intro hnd a b ha hb h
    simp only [List.map_cons, List.nodup_cons] at hnd
    rcases List.mem_cons.mp ha with ha1 | ha1 <;>
      rcases List.mem_cons.mp hb with hb1 | hb1
    · exact ha1.trans hb1.symm
    · subst ha1
      exact absurd (h ▸ List.mem_map_of_mem Node.index hb1) hnd.1
    · subst hb1
      exact absurd (h ▸ List.mem_map_of_mem Node.index ha1) hnd.1
    · exact ih hnd.2 ha1 hb1 h

theorem index_inj {g : Graph} (hnd : (g.nodes.map Node.index).Nodup)
    {a b : Node} (ha : a ∈ g.nodes) (hb : b ∈ g.nodes) (h : a.index = b.index) :
    a = b :=
  index_inj_list g.nodes hnd ha hb h

/-- The per-consumer contribution to `outputEdges`. -/
def outContrib (g : Graph) (n m : Node) : List OEdge :=
  m.inputDefs.enum.filterMap fun p =>
    match producerOf g p.2 with
    | some q => if q.index == n.index then some (⟨m, p.1, p.2⟩ : OEdge) else none
    | none => none

theorem outputEdges_eq (g : Graph) (n : Node) :
    outputEdges g n = g.nodes.foldr (fun m acc => outContrib g n m ++ acc) [] := rfl

theorem mem_foldr_append {α β : Type} (f : α → List β) :
    ∀ (l : List α) (e : β), e ∈ l.foldr (fun m acc => f m ++ acc) [] →
      ∃ m ∈ l, e ∈ f m := by
  intro l
  induction l with
  | nil => intro e he; cases he
  | cons m t ih =>
    intro e he
    rcases List.mem_append.mp he with h1 | h1
    · exact ⟨m, List.mem_cons_self _ _, h1⟩
    · obtain ⟨m', hm', he'⟩ := ih e h1
      exact ⟨m', List.mem_cons_of_mem _ hm', he'⟩

theorem outContrib_dst {g : Graph} {n m : Node} {e : OEdge}
    (he : e ∈ outContrib g n m) : e.dst = m := by
  obtain ⟨p, hp, hf⟩ := List.mem_filterMap.mp he
  split at hf
  · split at hf
    · have := Option.some.inj hf
      subst this
      rfl
    · simp at hf
  · simp at hf

theorem outputEdges_dst_mem {g : Graph} {n : Node} {e : OEdge}
    (he : e ∈ outputEdges g n) : e.dst ∈ g.nodes := by
  rw [outputEdges_eq] at he
  obtain ⟨m, hm, he'⟩ := mem_foldr_append _ g.nodes e he
  rw [outContrib_dst he']
  exact hm

theorem outputEdges_input_edge {g : Graph} {n : Node} {e : OEdge}
    (he : e ∈ outputEdges g n) :
    ∃ e' ∈ inputEdges g e.dst, e'.src.index = n.index := by
  rw [outputEdges_eq] at he
  obtain ⟨m, hm, he'⟩ := mem_foldr_append _ g.nodes e he
  have hdst := outContrib_dst he'
  obtain ⟨p, hp, hf⟩ := List.mem_filterMap.mp he'
  split at hf
  next q hq =>
    split at hf
    next hqi =>
      have := Option.some.inj hf
      subst this
      refine ⟨⟨q, p.1, p.2⟩, ?_, by simpa using hqi⟩
      show ⟨q, p.1, p.2⟩ ∈ inputEdges g m
      exact List.mem_filterMap.mpr ⟨p, hp, by rw [hq]; rfl⟩
    next => simp at hf
  next => simp at hf

theorem filter_length_foldr_append {α β : Type} (f : α → List β) (p : β → Bool) :
    ∀ l : List α,
      ((l.foldr (fun m acc => f m ++ acc) []).filter p).length
        = (l.map fun m => ((f m).filter p).length).sum := by
  intro l
  induction l with
  | nil => rfl
  | cons m t ih => simp [List.filter_append, ih]

theorem outContrib_filter_ne {g : Graph} {cur m : Node} {i : Nat} (h : m.index ≠ i) :
    (outContrib g cur m).filter (fun e => e.dst.index == i) = [] := by
  rw [List.filter_eq_nil_iff]
  intro e he
  rw [outContrib_dst he]
  simpa using h

theorem outContrib_filter_eq {g : Graph} {cur m : Node} {i : Nat} (h : m.index = i) :
    (outContrib g cur m).filter (fun e => e.dst.index == i) = outContrib g cur m := by
  rw [List.filter_eq_self]
  intro e he
  rw [outContrib_dst he]
  simpa using h

theorem outContrib_length (g : Graph) (cur n : Node) :
    (outContrib g cur n).length = edgesFrom g n cur.index := by
  unfold outContrib edgesFrom inputEdges
  induction n.inputDefs.enum with
  | nil => rfl
  | cons p t ih =>
    cases hq : producerOf g p.2 with
    | none =>
      rw [List.filterMap_cons_none (by simp [hq]),
        List.filterMap_cons_none (by simp [hq])]
      exact ih
    | some q =>
      by_cases hqi : (q.index == cur.index) = true
      · rw [List.filterMap_cons_some
            (show _ = some (⟨n, p.1, p.2⟩ : OEdge) from by simp [hq, hqi]),
          List.filterMap_cons_some
            (show _ = some (⟨q, p.1, p.2⟩ : Edge) from by simp [hq]),
          List.filter_cons_of_pos (by simpa using hqi)]
        simpa using ih
      · rw [List.filterMap_cons_none (show _ = none from by simp [hq, hqi]),
          List.filterMap_cons_some
            (show _ = some (⟨q, p.1, p.2⟩ : Edge) from by simp [hq]),
          List.filter_cons_of_neg (by simpa using hqi)]
        exact ih

theorem countTo_outputEdges {g : Graph} (hnd : (g.nodes.map Node.index).Nodup)
    {n : Node} (hn : n ∈ g.nodes) (cur : Node) :
    countTo (outputEdges g cur) n.index = edgesFrom g n cur.index := by
  unfold countTo
  rw [outputEdges_eq, filter_length_foldr_append]
  rw [← outContrib_length g cur n]
  revert hnd hn
  induction g.nodes with
  | nil => intro _ hn; cases hn
  | cons m t ih =>
    intro hnd hn
    simp only [List.map_cons, List.nodup_cons] at hnd
    rcases List.mem_cons.mp hn with h1 | h1
    · subst h1
      rw [List.map_cons, List.sum_cons, outContrib_filter_eq rfl]
      have ht : (t.map fun m => ((outContrib g cur m).filter
          (fun e => e.dst.index == n.index)).length).sum = 0 := by
        rw [List.sum_eq_zero]
        intro x hx
        obtain ⟨m', hm', hx'⟩ := List.mem_map.mp hx
        rw [← hx', outContrib_filter_ne, List.length_nil]
        intro hc
        exact hnd.1 (hc ▸ List.mem_map_of_mem Node.index hm')
      omega
    · rw [List.map_cons, List.sum_cons, outContrib_filter_ne, List.length_nil]
      · have := ih hnd.2 h1
        omega
      · intro hc
        exact hnd.1 (hc ▸ List.mem_map_of_mem Node.index h1)

theorem filter_length_eq_all {α : Type} (p : α → Bool) :
    ∀ l : List α, (l.filter p).length = l.length → ∀ x ∈ l, p x = true := by
  intro l
  induction l with
  | nil => intro _ x hx; cases hx
  | cons a t ih =>
    intro hlen x hx
    by_cases hpa : p a = true
    · rw [List.filter_cons_of_pos hpa] at hlen
      simp only [List.length_cons, Nat.add_right_cancel_iff] at hlen
      rcases List.mem_cons.mp hx with h1 | h1
      · exact h1 ▸ hpa
      · exact ih hlen x h1
    · rw [List.filter_cons_of_neg hpa] at hlen
      have := List.length_filter_le p t
      simp only [List.length_cons] at hlen
      omega

theorem emittedCnt_le (g : Graph) (out : List Nat) (n : Node) :
    emittedCnt g out n ≤ (inputEdges g n).length :=
  List.length_filter_le _ _

theorem emittedCnt_all {g : Graph} {out : List Nat} {n : Node}
    (h : emittedCnt g out n = (inputEdges g n).length) :
    ∀ e ∈ inputEdges g n, e.src.index ∈ out := by
  intro e he
  have := filter_length_eq_all _ _ h e he
  simpa using this

theorem emittedCnt_append_one {g : Graph} {out : List Nat} {c : Nat}
    (hc : c ∉ out) (n : Node) :
    emittedCnt g (out ++ [c]) n = emittedCnt g out n + edgesFrom g n c := by
  unfold emittedCnt edgesFrom
  induction inputEdges g n with
  | nil => rfl
  | cons e t ih =>
    by_cases h1 : e.src.index ∈ out
    · have h2 : e.src.index ≠ c := fun hx => hc (hx ▸ h1)
      rw [List.filter_cons_of_pos (by simp [h1]),
        List.filter_cons_of_pos (by simpa using h1),
        List.filter_cons_of_neg (by simpa using h2)]
      simp only [List.length_cons]
      omega
    · by_cases h2 : e.src.index = c
      · rw [List.filter_cons_of_pos (by simp [h2]),
          List.filter_cons_of_neg (by simpa using h1),
          List.filter_cons_of_pos (by simpa using h2)]
        simp only [List.length_cons]
        omega
      · rw [List.filter_cons_of_neg (by simp [h1, h2]),
          List.filter_cons_of_neg (by simpa using h1),
          List.filter_cons_of_neg (by simpa using h2)]
        exact ih

theorem emittedCnt_zero (g : Graph) (n : Node) : emittedCnt g [] n = 0 := by
  unfold emittedCnt
  induction inputEdges g n with
  | nil => rfl
  | cons e t ih => rw [List.filter_cons_of_neg (by simp)]; exact ih

theorem qready_edgesFrom_zero {g : Graph} {out : List Nat} {n : Node} {c : Nat}
    (hready : ∀ e ∈ inputEdges g n, e.src.index ∈ out) (hc : c ∉ out) :
    edgesFrom g n c = 0 := by
  unfold edgesFrom
  rw [List.length_eq_zero]
  rw [List.filter_eq_nil_iff]
  intro e he
  simp only [beq_iff_eq]
  intro hx
  exact hc (hx ▸ hready e he)

theorem popBest_choice (comp : Node → Node → Bool) :
    ∀ (t : List Node) (n : Node),
      t.foldl (fun b x => if comp b x then x else b) n = n
      ∨ t.foldl (fun b x => if comp b x then x else b) n ∈ t := by
  intro t
  induction t with
  | nil => intro n; exact Or.inl rfl
  | cons x t' ih =>
    intro n
    simp only [List.foldl_cons]
    rcases ih (if comp n x then x else n) with h | h
    · rw [h]
      by_cases hc : comp n x = true
      · rw [if_pos hc]
        exact Or.inr (List.mem_cons_self _ _)
      · rw [if_neg hc]
        exact Or.inl rfl
    · exact Or.inr (List.mem_cons_of_mem _ h)

theorem popBest_some {comp : Node → Node → Bool} {q rest : List Node} {cur : Node}
    (h : popBest comp q = some (cur, rest)) :
    cur ∈ q ∧ rest = q.erase cur := by
  cases q with
  | nil => simp [popBest] at h
  | cons n t =>
    simp only [popBest, Option.some.injEq, Prod.mk.injEq] at h
    obtain ⟨h1, h2⟩ := h
    constructor
    · rcases popBest_choice comp t n with hc | hc
      · rw [← h1, hc]
        exact List.mem_cons_self _ _
      · rw [← h1]
        exact List.mem_cons_of_mem _ hc
    · rw [← h2, ← h1]

theorem popBest_none {comp : Node → Node → Bool} {q : List Node}
    (h : popBest comp q = none) : q = [] := by
  cases q with
  | nil => rfl
  | cons n t => simp [popBest] at h

theorem countTo_cons_eq {e : OEdge} {E : List OEdge} {i : Nat} (h : e.dst.index = i) :
    countTo (e :: E) i = countTo E i + 1 := by
  unfold countTo
  rw [List.filter_cons_of_pos (by simpa using h)]
  rfl

theorem countTo_cons_ne {e : OEdge} {E : List OEdge} {i : Nat} (h : e.dst.index ≠ i) :
    countTo (e :: E) i = countTo E i := by
  unfold countTo
  rw [List.filter_cons_of_neg (by simpa using h)]

/-- Positional topological closure of the emitted list: every input edge of
a node emitted at position `k` has its source emitted before `k`. -/
def PosClosed (g : Graph) (out : List Nat) : Prop :=
  ∀ k (n : Node), out.get? k = some n.index → n ∈ g.nodes →
    ∀ e ∈ inputEdges g n, e.src.index ∈ out.take k

/-- The loop invariant of the Kahn scheduling pass. -/
structure KahnInv (g : Graph) (q : List Node) (deg : List (Nat × Int)) (out : List Nat) :
    Prop where
  qmem : ∀ n ∈ q, n ∈ g.nodes
  qready : ∀ n ∈ q, ∀ e ∈ inputEdges g n, e.src.index ∈ out
  nodup : (out ++ q.map Node.index).Nodup
  degOk : ∀ n ∈ g.nodes, degGet deg n.index
    = ((inputEdges g n).length : Int) - (emittedCnt g out n : Int)
  outMem : ∀ i ∈ out, ∃ n ∈ g.nodes, n.index = i
  posClosed : PosClosed g out

theorem outClosed_of_posClosed {g : Graph} {out : List Nat}
    (hpos : PosClosed g out) {i : Nat} (hi : i ∈ out) {n : Node} (hn : n ∈ g.nodes)
    (hidx : n.index = i) : ∀ e ∈ inputEdges g n, e.src.index ∈ out := by
  intro e he
  obtain ⟨k, hk⟩ := List.mem_iff_get?.mp hi
  have := hpos k n (by rw [hk, hidx]) hn e he
  exact List.take_subset k out this

theorem mem_take_get? {l : List Nat} {k : Nat} {x : Nat} (h : x ∈ l.take k) :
    ∃ j < k, l.get? j = some x := by
  obtain ⟨j, hj⟩ := List.mem_iff_get?.mp h
  have hjlen : j < (l.take k).length := (List.get?_eq_some.mp hj).1
  have hjk : j < k := lt_of_lt_of_le hjlen (by simpa using List.length_take_le k l)
  refine ⟨j, hjk, ?_⟩
  rw [← List.get?_take hjk]
  exact hj

theorem degGet_init {f : Node → Int} :
    ∀ (l : List Node), (l.map Node.index).Nodup → ∀ {n : Node}, n ∈ l →
      degGet (l.map fun m => (m.index, f m)) n.index = f n := by
  intro l
  induction l with
  | nil => intro _ n hn; cases hn
  | cons m t ih =>
    intro hnd n hn
    simp only [List.map_cons, List.nodup_cons] at hnd
    rcases List.mem_cons.mp hn with h1 | h1
    · subst h1
      exact degGet_cons_eq _ _ _
    · rw [List.map_cons, degGet_cons_ne]
      · exact ih hnd.2 h1
      · intro hx
        exact hnd.1 (hx ▸ List.mem_map_of_mem Node.index h1)

theorem kahnFold_inv (g : Graph) (hnd : (g.nodes.map Node.index).Nodup)
    (out' : List Nat) (cur : Node) :
    ∀ (E : List OEdge) (q1 : List Node) (d1 : List (Nat × Int)),
    (∀ e ∈ E, e ∈ outputEdges g cur) →
    (∀ e ∈ E, e.dst.index ∉ out') →
    (∀ n ∈ q1, n ∈ g.nodes) →
    (∀ n ∈ q1, ∀ e ∈ inputEdges g n, e.src.index ∈ out') →
    ((out' ++ q1.map Node.index).Nodup) →
    (∀ n ∈ g.nodes, degGet d1 n.index
      = ((inputEdges g n).length : Int) - (emittedCnt g out' n : Int)
        + (countTo E n.index : Int)) →
    (∀ n ∈ q1, countTo E n.index = 0) →
    ((∀ n ∈ (E.foldl (fun (st : List Node × List (Nat × Int)) e =>
        let d' := degDec st.2 e.dst.index
        if degGet d' e.dst.index == 0 then (st.1 ++ [e.dst], d') else (st.1, d'))
        (q1, d1)).1, n ∈ g.nodes)
     ∧ (∀ n ∈ (E.foldl (fun (st : List Node × List (Nat × Int)) e =>
        let d' := degDec st.2 e.dst.index
        if degGet d' e.dst.index == 0 then (st.1 ++ [e.dst], d') else (st.1, d'))
        (q1, d1)).1, ∀ e ∈ inputEdges g n, e.src.index ∈ out')
     ∧ ((out' ++ ((E.foldl (fun (st : List Node × List (Nat × Int)) e =>
        let d' := degDec st.2 e.dst.index
        if degGet d' e.dst.index == 0 then (st.1 ++ [e.dst], d') else (st.1, d'))
        (q1, d1)).1).map Node.index).Nodup)
     ∧ (∀ n ∈ g.nodes, degGet ((E.foldl (fun (st : List Node × List (Nat × Int)) e =>
        let d' := degDec st.2 e.dst.index
        if degGet d' e.dst.index == 0 then (st.1 ++ [e.dst], d') else (st.1, d'))
        (q1, d1)).2) n.index
        = ((inputEdges g n).length : Int) - (emittedCnt g out' n : Int))) := by
  intro E
  induction E with
  | nil =>
    intro q1 d1 _ _ hqmem hqready hnodup hdeg _
    refine ⟨hqmem, hqready, hnodup, ?_⟩
    intro n hn
    have := hdeg n hn
    simpa [countTo] using this
  | cons e E' ih =>
    intro q1 d1 hE hEout hqmem hqready hnodup hdeg hzero
    have heout : e ∈ outputEdges g cur := hE e (List.mem_cons_self _ _)
    have hdstmem : e.dst ∈ g.nodes := outputEdges_dst_mem heout
    simp only [List.foldl_cons]
    set d2 := degDec d1 e.dst.index with hd2
    have hdeg2 : ∀ n ∈ g.nodes, degGet d2 n.index
        = ((inputEdges g n).length : Int) - (emittedCnt g out' n : Int)
          + (countTo E' n.index : Int) := by
      intro n hn
      by_cases hni : n.index = e.dst.index
      · have hthis := hdeg n hn
        rw [countTo_cons_eq (by rw [hni])] at hthis
        rw [hd2, hni, degGet_degDec_self, ← hni, hthis]
        push_cast
        ring
      · rw [hd2, degGet_degDec_other _ _ _ (fun hx => hni hx)]
        have := hdeg n hn
        rw [countTo_cons_ne (fun hx => hni hx.symm)] at this
        exact this
    by_cases hpush : (degGet d2 e.dst.index == 0) = true
    · rw [if_pos hpush]
      have hzero2 : degGet d2 e.dst.index = 0 := by simpa using hpush
      have hsplit : emittedCnt g out' e.dst = (inputEdges g e.dst).length
          ∧ countTo E' e.dst.index = 0 := by
        have h1 := hdeg2 e.dst hdstmem
        rw [hzero2] at h1
        have h2 := emittedCnt_le g out' e.dst
        constructor
        · omega
        · omega
      have hready : ∀ e2 ∈ inputEdges g e.dst, e2.src.index ∈ out' :=
        emittedCnt_all hsplit.1
      have hnotq1 : e.dst ∉ q1 := by
        intro hmem
        have := hzero e.dst hmem
        rw [countTo_cons_eq rfl] at this
        omega
      have hnodup2 : (out' ++ (q1 ++ [e.dst]).map Node.index).Nodup := by
        rw [List.map_append]
        rw [show out' ++ (q1.map Node.index ++ [e.dst].map Node.index)
            = (out' ++ q1.map Node.index) ++ [e.dst.index] from by
          simp [List.append_assoc]]
        rw [List.nodup_append]
        refine ⟨hnodup, by simp, ?_⟩
        intro a ha hb
        have hb' : a = e.dst.index := by simpa using hb
        subst hb'
        rcases List.mem_append.mp ha with h1 | h1
        · exact hEout e (List.mem_cons_self _ _) h1
        · obtain ⟨m, hm, hmi⟩ := List.mem_map.mp h1
          have := index_inj hnd (hqmem m hm) hdstmem hmi
          subst this
          exact hnotq1 hm
      refine ih (q1 ++ [e.dst]) d2
        (fun x hx => hE x (List.mem_cons_of_mem _ hx))
        (fun x hx => hEout x (List.mem_cons_of_mem _ hx))
        (fun n hn => ?_) (fun n hn => ?_) hnodup2 hdeg2 (fun n hn => ?_)
      · rcases List.mem_append.mp hn with h1 | h1
        · exact hqmem n h1
        · have : n = e.dst := by simpa using h1
          subst this
          exact hdstmem
      · rcases List.mem_append.mp hn with h1 | h1
        · exact hqready n h1
        · have : n = e.dst := by simpa using h1
          subst this
          exact hready
      · rcases List.mem_append.mp hn with h1 | h1
        · have := hzero n h1
          by_cases hni : e.dst.index = n.index
          · rw [countTo_cons_eq hni] at this
            omega
          · rw [countTo_cons_ne hni] at this
            exact this
        · have : n = e.dst := by simpa using h1
          subst this
          exact hsplit.2
    · rw [if_neg hpush]
      refine ih q1 d2
        (fun x hx => hE x (List.mem_cons_of_mem _ hx))
        (fun x hx => hEout x (List.mem_cons_of_mem _ hx))
        hqmem hqready hnodup hdeg2 (fun n hn => ?_)
      have := hzero n hn
      by_cases hni : e.dst.index = n.index
      · rw [countTo_cons_eq hni] at this
        omega
      · rw [countTo_cons_ne hni] at this
        exact this

theorem kahnStep_inv (g : Graph) (hnd : (g.nodes.map Node.index).Nodup)
    {q rest : List Node} {deg : List (Nat × Int)} {out : List Nat} {cur : Node}
    (hinv : KahnInv g q deg out)
    (hpop : popBest PriorityNodeCompare q = some (cur, rest)) :
    KahnInv g
      ((outputEdges g cur).foldl (fun (st : List Node × List (Nat × Int)) e =>
        let d' := degDec st.2 e.dst.index
        if degGet d' e.dst.index == 0 then (st.1 ++ [e.dst], d') else (st.1, d'))
        (rest, deg)).1
      ((outputEdges g cur).foldl (fun (st : List Node × List (Nat × Int)) e =>
        let d' := degDec st.2 e.dst.index
        if degGet d' e.dst.index == 0 then (st.1 ++ [e.dst], d') else (st.1, d'))
        (rest, deg)).2
      (out ++ [cur.index]) := by
  obtain ⟨hcurq, hrest⟩ := popBest_some hpop
  have hcurmem : cur ∈ g.nodes := hinv.qmem cur hcurq
  have hcuridx_notout : cur.index ∉ out := by
    intro hmem
    have hperm : List.Perm (q.map Node.index) (cur.index :: rest.map Node.index) := by
      rw [hrest]
      exact (List.perm_cons_erase hcurq).map Node.index
    have hnd2 := hinv.nodup
    rw [List.nodup_append] at hnd2
    exact hnd2.2.2 hmem (by
      exact hperm.mem_iff.mpr (List.mem_cons_self _ _))
  have hnodup' : ((out ++ [cur.index]) ++ rest.map Node.index).Nodup := by
    have hperm : List.Perm (out ++ q.map Node.index)
        ((out ++ [cur.index]) ++ rest.map Node.index) := by
      rw [List.append_assoc]
      refine List.Perm.append_left out ?_
      rw [hrest]
      exact (List.perm_cons_erase hcurq).map Node.index
    exact hperm.nodup hinv.nodup
  have hrestsub : ∀ n ∈ rest, n ∈ q := by
    intro n hn
    rw [hrest] at hn
    exact List.erase_subset _ _ hn
  have hEdstout : ∀ e ∈ outputEdges g cur, e.dst.index ∉ (out ++ [cur.index]) := by
    intro e he hmem
    obtain ⟨e', he', hsrc⟩ := outputEdges_input_edge he
    rcases List.mem_append.mp hmem with h1 | h1
    · have hclosed := outClosed_of_posClosed hinv.posClosed h1
        (outputEdges_dst_mem he) rfl e' he'
      rw [hsrc] at hclosed
      exact hcuridx_notout hclosed
    · have hdi : e.dst.index = cur.index := by simpa using h1
      have hdst : e.dst = cur := index_inj hnd (outputEdges_dst_mem he) hcurmem hdi
      have := hinv.qready cur hcurq e' (hdst ▸ he')
      rw [hsrc] at this
      exact hcuridx_notout this
  have hfold := kahnFold_inv g hnd (out ++ [cur.index]) cur (outputEdges g cur) rest deg
    (fun e he => he) hEdstout
    (fun n hn => hinv.qmem n (hrestsub n hn))
    (fun n hn e he => List.mem_append_left _ (hinv.qready n (hrestsub n hn) e he))
    hnodup'
    (fun n hn => by
      rw [hinv.degOk n hn, emittedCnt_append_one hcuridx_notout n,
        countTo_outputEdges hnd hn cur]
      push_cast
      ring)
    (fun n hn => by
      rw [countTo_outputEdges hnd (hinv.qmem n (hrestsub n hn)) cur]
      exact qready_edgesFrom_zero (hinv.qready n (hrestsub n hn)) hcuridx_notout)
  refine ⟨hfold.1, hfold.2.1, hfold.2.2.1, hfold.2.2.2, ?_, ?_⟩
  · intro i hi
    rcases List.mem_append.mp hi with h1 | h1
    · exact hinv.outMem i h1
    · have : i = cur.index := by simpa using h1
      exact ⟨cur, hcurmem, this.symm⟩
  · intro k n hget hn e he
    by_cases hk : k < out.length
    · rw [List.get?_append hk] at hget
      have := hinv.posClosed k n hget hn e he
      rw [List.take_append_of_le_length (Nat.le_of_lt hk)]
      exact this
    · have hget2 : ([cur.index] : List Nat).get? (k - out.length) = some n.index := by
        rw [← List.get?_append_right (Nat.le_of_not_lt hk)]
        exact hget
      have hk0 : k - out.length = 0 := by
        by_contra hne
        rw [List.get?_eq_none.mpr (by simp; omega)] at hget2
        cases hget2
      rw [hk0] at hget2
      have hni : n.index = cur.index := by simpa using hget2.symm
      have hcur : n = cur := index_inj hnd hn hcurmem hni
      subst hcur
      have hkeq : k = out.length := by omega
      subst hkeq
      rw [List.take_left]
      exact hinv.qready n hcurq e he

theorem kahnLoop_final (g : Graph) (hnd : (g.nodes.map Node.index).Nodup) :
    ∀ (fuel : Nat) (q : List Node) (deg : List (Nat × Int)) (out : List Nat),
    KahnInv g q deg out →
    (kahnLoop g PriorityNodeCompare fuel q deg out).Nodup
    ∧ (∀ i ∈ kahnLoop g PriorityNodeCompare fuel q deg out, ∃ n ∈ g.nodes, n.index = i)
    ∧ PosClosed g (kahnLoop g PriorityNodeCompare fuel q deg out) := by
  intro fuel
  induction fuel with
  | zero =>
    intro q deg out hinv
    refine ⟨?_, hinv.outMem, hinv.posClosed⟩
    exact hinv.nodup.sublist (List.sublist_append_left _ _)
  | succ fuel ih =>
    intro q deg out hinv
    show (match popBest PriorityNodeCompare q with
      | none => out
      | some (n, q') => _).Nodup ∧ _ ∧ _
    cases hpop : popBest PriorityNodeCompare q with
    | none =>
      simp only [kahnLoop, hpop]
      refine ⟨hinv.nodup.sublist (List.sublist_append_left _ _),
        hinv.outMem, hinv.posClosed⟩
    | some p =>
      obtain ⟨cur, rest⟩ := p
      simp only [kahnLoop, hpop]
      exact ih _ _ _ (kahnStep_inv g hnd hinv hpop)

theorem chain_pred {g : Graph} : ∀ (a : Node) (t : List Node),
    chainEdgesB g a t = true → ∀ n ∈ t, ∃ p ∈ a :: t, edgeB g p n = true := by
  intro a t
  induction t generalizing a with
  | nil => intro _ n hn; cases hn
  | cons b t' ih =>
    intro hchain n hn
    simp only [chainEdgesB, Bool.and_eq_true] at hchain
    rcases List.mem_cons.mp hn with h1 | h1
    · subst h1
      exact ⟨a, List.mem_cons_self _ _, hchain.1⟩
    · obtain ⟨p, hp, hpe⟩ := ih b hchain.2 n h1
      exact ⟨p, List.mem_cons_of_mem _ hp, hpe⟩

theorem getLastD_mem_cons : ∀ (t : List Node) (a : Node), t.getLastD a ∈ a :: t := by
  intro t
  induction t with
  | nil => intro a; exact List.mem_cons_self _ _
  | cons b t' ih =>
    intro a
    rw [List.getLastD_cons]
    exact List.mem_cons_of_mem _ (ih b)

theorem cycle_pred {g : Graph} {c : List Node} (hc : IsCycle g c) :
    ∀ n ∈ c, ∃ p ∈ c, edgeB g p n = true := by
  cases c with
  | nil => cases hc
  | cons h t =>
    obtain ⟨hchain, hback, hmem⟩ := hc
    intro n hn
    rcases List.mem_cons.mp hn with h1 | h1
    · subst h1
      exact ⟨t.getLastD n, getLastD_mem_cons t n, hback⟩
    · exact chain_pred h t hchain n h1

theorem edgeB_input_edge {g : Graph} {p n : Node} (h : edgeB g p n = true) :
    ∃ e ∈ inputEdges g n, e.src.index = p.index := by
  unfold edgeB at h
  obtain ⟨e, he, heq⟩ := List.any_eq_true.mp h
  exact ⟨e, he, by simpa using heq⟩

theorem kahn_init_inv (g : Graph) (hnd : (g.nodes.map Node.index).Nodup) :
    KahnInv g (g.nodes.filter fun n => (inputEdges g n).isEmpty)
      (g.nodes.map fun n => (n.index, ((inputEdges g n).length : Int))) [] := by
  refine ⟨?_, ?_, ?_, ?_, ?_, ?_⟩
  · intro n hn
    exact (List.mem_filter.mp hn).1
  · intro n hn e he
    have hempty := (List.mem_filter.mp hn).2
    rw [List.isEmpty_iff] at hempty
    rw [hempty] at he
    cases he
  · simp only [List.nil_append]
    exact hnd.sublist ((List.filter_sublist _).map Node.index)
  · intro n hn
    rw [degGet_init g.nodes hnd hn, emittedCnt_zero]
    simp
  · intro i hi
    cases hi
  · intro k n hget
    rw [List.get?_eq_none.mpr (by simp)] at hget
    cases hget

theorem cycle_members {g : Graph} {c : List Node} (hc : IsCycle g c) :
    ∀ n ∈ c, n ∈ g.nodes := by
  cases c with
  | nil => cases hc
  | cons h t => exact hc.2.2

/-- C7 (amended): in a graph without a boundary (YieldOp) node, any cycle
among exposed nodes makes the priority order builder report the fatal cycle
error: the Kahn pass can never emit a cycle member, so the emission count
falls short of the exposed node count and the consistency check fires.
(The default order builder, by contrast, silently returns an unchecked
order — see `c7_default_builder_silent_on_cycle`.) -/
theorem c7_no_yield_cycle_reports_fatal_error (g : Graph) (c : List Node)
    (hnd : (g.nodes.map Node.index).Nodup)
    (hc : IsCycle g c) (hy : yieldNodeOf g = none) :
    nodesInTopologicalOrderWithPriority g =
      .error "Some nodes are not included in the topological sort, graph have a cycle." := by
  have hcmem := cycle_members hc
  have hresult_eq : KahnsTopologicalSort g PriorityNodeCompare
      = kahnLoop g PriorityNodeCompare (g.nodes.length + 1)
        (g.nodes.filter fun n => (inputEdges g n).isEmpty)
        (g.nodes.map fun n => (n.index, ((inputEdges g n).length : Int))) [] := rfl
  have hfinal := kahnLoop_final g hnd (g.nodes.length + 1)
    (g.nodes.filter fun n => (inputEdges g n).isEmpty)
    (g.nodes.map fun n => (n.index, ((inputEdges g n).length : Int))) []
    (kahn_init_inv g hnd)
  rw [← hresult_eq] at hfinal
  set result := KahnsTopologicalSort g PriorityNodeCompare with hres
  have hnotin : ∀ k, ∀ n ∈ c, result.get? k ≠ some n.index := by
    intro k
    induction k using Nat.strong_induction_on with
    | _ k ih =>
      intro n hn hget
      obtain ⟨p, hpc, hedge⟩ := cycle_pred hc n hn
      obtain ⟨e, he, hesrc⟩ := edgeB_input_edge hedge
      have htake := hfinal.2.2 k n hget (hcmem n hn) e he
      rw [hesrc] at htake
      obtain ⟨j, hjk, hj⟩ := mem_take_get? htake
      exact ih j hjk p hpc hj
  obtain ⟨h0, hh0⟩ : ∃ h0, h0 ∈ c := by
    cases c with
    | nil => cases hc
    | cons h t => exact ⟨h, List.mem_cons_self _ _⟩
  have hh0_notin : h0.index ∉ result := by
    intro hmem
    obtain ⟨k, hk⟩ := List.mem_iff_get?.mp hmem
    exact hnotin k h0 hh0 hk
  have hh0_nodes : h0 ∈ g.nodes := hcmem h0 hh0
  have hh0_in_map : h0.index ∈ (g.nodes.map Node.index).toFinset := by
    rw [List.mem_toFinset]
    exact List.mem_map_of_mem Node.index hh0_nodes
  have hsubset : result.toFinset ⊆ ((g.nodes.map Node.index).toFinset).erase h0.index := by
    intro i hi
    rw [List.mem_toFinset] at hi
    rw [Finset.mem_erase]
    refine ⟨fun hx => hh0_notin (hx ▸ hi), ?_⟩
    obtain ⟨n, hn, hni⟩ := hfinal.2.1 i hi
    rw [List.mem_toFinset]
    exact hni ▸ List.mem_map_of_mem Node.index hn
  have hcard1 : result.toFinset.card = result.length :=
    List.toFinset_card_of_nodup hfinal.1
  have hcard2 : (g.nodes.map Node.index).toFinset.card = g.nodes.length := by
    rw [List.toFinset_card_of_nodup hnd, List.length_map]
  have hlt : result.length < g.nodes.length := by
    have h1 := Finset.card_le_card hsubset
    rw [hcard1, Finset.card_erase_of_mem hh0_in_map, hcard2] at h1
    have h2 : 0 < g.nodes.length := List.length_pos.mpr (by
      intro hx
      rw [hx] at hh0_nodes
      cases hh0_nodes)
    omega
  have hstep : nodesInTopologicalOrderWithPriority g = priorityOrderNoYield g := by
    unfold nodesInTopologicalOrderWithPriority
    rw [hy]
  rw [hstep]
  unfold priorityOrderNoYield
  rw [← hres, if_neg (by simpa using Nat.ne_of_lt hlt)]

/-- Witness for `c7_no_yield_cycle_reports_fatal_error` at the concrete
two-node cycle `cyc2`. -/
theorem c7_no_yield_cycle_witness :
    (cyc2.nodes.map Node.index).Nodup ∧ IsCycle cyc2 [cycA, cycB]
    ∧ yieldNodeOf cyc2 = none
    ∧ nodesInTopologicalOrderWithPriority cyc2 =
        .error "Some nodes are not included in the topological sort, graph have a cycle." :=
  ⟨by decide, by decide, rfl,
   c7_no_yield_cycle_reports_fatal_error cyc2 [cycA, cycB] (by decide) (by decide) rfl⟩

/-! ## Reverse-DFS correctness (for C4) -/

/-- Edge between node indices. -/
def edgeIdx (g : Graph) (i j : Nat) : Prop :=
  ∃ a ∈ g.nodes, ∃ b ∈ g.nodes, a.index = i ∧ b.index = j ∧ edgeB g a b = true

/-- The DFS call-stack chain: consecutive stack entries are connected by
edges (the deeper call explores a predecessor of the shallower one). -/
def stackOk (g : Graph) : List Nat → Prop
  | [] => True
  | _ :: [] => True
  | i :: j :: rest => edgeIdx g i j ∧ stackOk g (j :: rest)

def unvisCount (g : Graph) (vis : List Nat) : Nat :=
  ((g.nodes.map Node.index).filter fun i => !(vis.contains i)).length

theorem edgeIdx_rank {g : Graph} {rank : Nat → Nat}
    (hrank : ∀ a ∈ g.nodes, ∀ b ∈ g.nodes, edgeB g a b = true → rank a.index < rank b.index)
    {i j : Nat} (h : edgeIdx g i j) : rank i < rank j := by
  obtain ⟨a, ha, b, hb, hai, hbj, hab⟩ := h
  have := hrank a ha b hb hab
  rw [hai, hbj] at this
  exact this

theorem stackOk_rank {g : Graph} {rank : Nat → Nat}
    (hrank : ∀ a ∈ g.nodes, ∀ b ∈ g.nodes, edgeB g a b = true → rank a.index < rank b.index) :
    ∀ (i : Nat) (rest : List Nat), stackOk g (i :: rest) →
      ∀ j ∈ rest, rank i < rank j := by
  intro i rest
  induction rest generalizing i with
  | nil => intro _ j hj; cases hj
  | cons k rest' ih =>
    intro hok j hj
    obtain ⟨hik, hok'⟩ := hok
    rcases List.mem_cons.mp hj with h1 | h1
    · exact h1 ▸ edgeIdx_rank hrank hik
    · exact Nat.lt_trans (edgeIdx_rank hrank hik) (ih k hok' j h1)

theorem stack_not_mem {g : Graph} {rank : Nat → Nat}
    (hrank : ∀ a ∈ g.nodes, ∀ b ∈ g.nodes, edgeB g a b = true → rank a.index < rank b.index)
    {i : Nat} {j : Nat} {js : List Nat} (hok : stackOk g (j :: js))
    (hedge : edgeIdx g i j) : i ∉ j :: js := by
  intro hmem
  rcases List.mem_cons.mp hmem with h1 | h1
  · subst h1
    exact Nat.lt_irrefl _ (edgeIdx_rank hrank hedge)
  · have h2 := stackOk_rank hrank j js hok i h1
    have h3 := edgeIdx_rank hrank hedge
    omega

theorem producerOf_mem {g : Graph} {arg : String} {m : Node}
    (h : producerOf g arg = some m) : m ∈ g.nodes :=
  List.mem_of_find?_eq_some h

theorem inputEdges_src_mem {g : Graph} {n : Node} {e : Edge}
    (he : e ∈ inputEdges g n) : e.src ∈ g.nodes := by
  obtain ⟨p, hp, hf⟩ := List.mem_filterMap.mp he
  cases hq : producerOf g p.2 with
  | none => rw [hq] at hf; cases hf
  | some m =>
    rw [hq] at hf
    have := Option.some.inj hf
    subst this
    exact producerOf_mem hq

theorem dedupByIndexAux_subset : ∀ (l : List Node) (seen : List Nat) (x : Node),
    x ∈ dedupByIndexAux l seen → x ∈ l := by
  intro l
  induction l with
  | nil => intro _ x hx; cases hx
  | cons m t ih =>
    intro seen x hx
    unfold dedupByIndexAux at hx
    by_cases hm : m.index ∈ seen
    · rw [if_pos hm] at hx
      exact List.mem_cons_of_mem _ (ih seen x hx)
    · rw [if_neg hm] at hx
      rcases List.mem_cons.mp hx with h1 | h1
      · exact h1 ▸ List.mem_cons_self _ _
      · exact List.mem_cons_of_mem _ (ih _ x h1)

theorem dedupByIndexAux_index_mem : ∀ (l : List Node) (seen : List Nat) (i : Nat),
    i ∈ l.map Node.index → i ∉ seen → ∃ p ∈ dedupByIndexAux l seen, p.index = i := by
  intro l
  induction l with
  | nil => intro _ i hi; cases hi
  | cons m t ih =>
    intro seen i hi hns
    unfold dedupByIndexAux
    rcases List.mem_cons.mp hi with h1 | h1
    · by_cases hm : m.index ∈ seen
      · exact absurd (h1 ▸ hm) hns
      · rw [if_neg hm]
        exact ⟨m, List.mem_cons_self _ _, h1.symm⟩
    · by_cases hm : m.index ∈ seen
      · rw [if_pos hm]
        exact ih seen i h1 hns
      · rw [if_neg hm]
        by_cases hieq : i = m.index
        · exact ⟨m, List.mem_cons_self _ _, hieq.symm⟩
        · obtain ⟨p, hp, hpi⟩ := ih (m.index :: seen) i h1 (by
            intro hx
            rcases List.mem_cons.mp hx with h2 | h2
            · exact hieq h2
            · exact hns h2)
          exact ⟨p, List.mem_cons_of_mem _ hp, hpi⟩

theorem predNodes_mem_nodes {g : Graph} {n p : Node} (hp : p ∈ predNodes g n) :
    p ∈ g.nodes := by
  have := dedupByIndexAux_subset _ _ _ hp
  obtain ⟨e, he, hes⟩ := List.mem_map.mp this
  exact hes ▸ inputEdges_src_mem he

theorem predNodes_edgeB {g : Graph} {n p : Node} (hp : p ∈ predNodes g n) :
    edgeB g p n = true := by
  have := dedupByIndexAux_subset _ _ _ hp
  obtain ⟨e, he, hes⟩ := List.mem_map.mp this
  unfold edgeB
  rw [List.any_eq_true]
  exact ⟨e, he, by rw [hes]; simp⟩

theorem mem_insertByIndex {x y : Node} : ∀ l : List Node,
    (y ∈ insertByIndex x l ↔ y = x ∨ y ∈ l) := by
  intro l
  induction l with
  | nil => simp [insertByIndex]
  | cons m t ih =>
    unfold insertByIndex
    by_cases hle : x.index ≤ m.index
    · rw [if_pos hle]
      simp
    · rw [if_neg hle]
      simp only [List.mem_cons, ih]
      tauto

theorem mem_sortByIndex {y : Node} : ∀ l : List Node, y ∈ sortByIndex l ↔ y ∈ l := by
  intro l
  induction l with
  | nil => simp [sortByIndex]
  | cons m t ih =>
    unfold sortByIndex
    rw [mem_insertByIndex]
    simp only [List.mem_cons, ih]

theorem append_singleton_split {α : Type} :
    ∀ (l1 : List α) (xs : List α) (i x : α) (l2 : List α),
    xs ++ [x] = l1 ++ i :: l2 →
    (l1 = xs ∧ i = x ∧ l2 = []) ∨ (∃ l2', l2 = l2' ++ [x] ∧ xs = l1 ++ i :: l2') := by
  intro l1
  induction l1 with
  | nil =>
    intro xs i x l2 h
    cases xs with
    | nil =>
      simp only [List.nil_append] at h
      obtain ⟨h1, h2⟩ := List.cons.inj h
      exact Or.inl ⟨rfl, h1.symm, h2.symm⟩
    | cons y xs' =>
      simp only [List.cons_append, List.nil_append] at h
      obtain ⟨h1, h2⟩ := List.cons.inj h
      exact Or.inr ⟨xs', h2.symm, by rw [List.nil_append, h1]⟩
  | cons a l1' ih =>
    intro xs i x l2 h
    cases xs with
    | nil =>
      simp only [List.nil_append, List.cons_append] at h
      obtain ⟨h1, h2⟩ := List.cons.inj h
      cases l1' with
      | nil => cases h2
      | cons b t => cases h2
    | cons y xs' =>
      simp only [List.cons_append] at h
      obtain ⟨h1, h2⟩ := List.cons.inj h
      rcases ih xs' i x l2 h2 with ⟨ha, hb, hc⟩ | ⟨l2', hl2, hxs⟩
      · exact Or.inl ⟨by rw [h1, ha], hb, hc⟩
      · exact Or.inr ⟨l2', hl2, by rw [List.cons_append, ← hxs, h1]⟩

theorem filter_len_mono {p q : Nat → Bool} (hpq : ∀ x, p x = true → q x = true) :
    ∀ l : List Nat, (l.filter p).length ≤ (l.filter q).length := by
  intro l
  induction l with
  | nil => exact Nat.le_refl _
  | cons a t ih =>
    by_cases hp : p a = true
    · rw [List.filter_cons_of_pos hp, List.filter_cons_of_pos (hpq a hp)]
      exact Nat.succ_le_succ ih
    · rw [List.filter_cons_of_neg (by simpa using hp)]
      by_cases hq : q a = true
      · rw [List.filter_cons_of_pos hq]
        exact Nat.le_succ_of_le ih
      · rw [List.filter_cons_of_neg (by simpa using hq)]
        exact ih

theorem contains_iff_mem (l : List Nat) (a : Nat) : l.contains a = true ↔ a ∈ l :=
  List.elem_iff

theorem contains_eq_false {l : List Nat} {a : Nat} : l.contains a = false ↔ a ∉ l := by
  constructor
  · intro h hm
    rw [(contains_iff_mem l a).mpr hm] at h
    cases h
  · intro h
    cases hc : l.contains a with
    | false => rfl
    | true => exact absurd ((contains_iff_mem l a).mp hc) h

theorem filter_cons_lt (vis : List Nat) (i : Nat) :
    ∀ l : List Nat, i ∈ l → i ∉ vis →
    (l.filter fun j => !((i :: vis).contains j)).length <
      (l.filter fun j => !(vis.contains j)).length := by
  intro l
  induction l with
  | nil => intro hi; cases hi
  | cons a t ih =>
    intro hi hnv
    by_cases hai : a = i
    · subst hai
      rw [List.filter_cons_of_neg (by
        show ¬(!(a :: vis).contains a) = true
        rw [List.contains_cons]
        simp)]
      rw [List.filter_cons_of_pos (by
        show (!vis.contains a) = true
        rw [contains_eq_false.mpr hnv]
        rfl)]
      have hmono : (t.filter fun j => !((a :: vis).contains j)).length ≤
          (t.filter fun j => !(vis.contains j)).length := by
        refine filter_len_mono ?_ t
        intro x hx
        rw [Bool.not_eq_true'] at hx ⊢
        rw [List.contains_cons, Bool.or_eq_false_iff] at hx
        exact hx.2
      simp only [List.length_cons]
      omega
    · have hbe : (a == i) = false := beq_eq_false_iff_ne.mpr hai
      have hstep : ((i :: vis).contains a) = (vis.contains a) := by
        rw [List.contains_cons, hbe, Bool.false_or]
      have hit : i ∈ t := by
        rcases List.mem_cons.mp hi with h | h
        · exact absurd h.symm hai
        · exact h
      cases hv : vis.contains a with
      | true =>
        rw [List.filter_cons_of_neg (by
          show ¬(!(i :: vis).contains a) = true
          rw [hstep, hv]
          decide)]
        rw [List.filter_cons_of_neg (by
          show ¬(!vis.contains a) = true
          rw [hv]
          decide)]
        exact ih hit hnv
      | false =>
        rw [List.filter_cons_of_pos (by
          show (!(i :: vis).contains a) = true
          rw [hstep, hv]
          rfl)]
        rw [List.filter_cons_of_pos (by
          show (!vis.contains a) = true
          rw [hv]
          rfl)]
        simp only [List.length_cons]
        exact Nat.succ_lt_succ (ih hit hnv)

theorem unvisCount_cons_lt {g : Graph} {vis : List Nat} {i : Nat}
    (hi : i ∈ g.nodes.map Node.index) (hnv : i ∉ vis) :
    unvisCount g (i :: vis) < unvisCount g vis :=
  filter_cons_lt vis i _ hi hnv

theorem unvisCount_mono {g : Graph} {vis vis' : List Nat}
    (h : ∀ x ∈ vis, x ∈ vis') : unvisCount g vis' ≤ unvisCount g vis := by
  refine filter_len_mono ?_ _
  intro x hx
  rw [Bool.not_eq_true'] at hx ⊢
  rw [contains_eq_false] at hx ⊢
  exact fun hm => hx (h x hm)

/-- The reverse-DFS invariant: visited = emitted ∪ call-stack; the emitted
list has no duplicates, is disjoint from the stack, mentions only graph
nodes, and every emitted node's input edges have their sources emitted
earlier. -/
structure DfsInv (g : Graph) (stack : List Nat) (st : List Nat × List Nat) : Prop where
  visIff : ∀ i, i ∈ st.1 ↔ (i ∈ st.2 ∨ i ∈ stack)
  outNodup : st.2.Nodup
  outStackDisj : ∀ i ∈ st.2, i ∉ stack
  outG : ∀ i ∈ st.2, ∃ n ∈ g.nodes, n.index = i
  sound : ∀ l1 i l2, st.2 = l1 ++ i :: l2 → ∀ b ∈ g.nodes, b.index = i →
    ∀ e ∈ inputEdges g b, e.src.index ∈ l1

theorem rdfsVisit_succ (g : Graph) (fuel : Nat) (n : Node) (st : List Nat × List Nat) :
    rdfsVisit g (fun _ _ => false) (fuel+1) n st =
      if n.index ∈ st.1 then st
      else
        (let st1 := (sortByIndex (predNodes g n)).foldl
          (fun acc p => rdfsVisit g (fun _ _ => false) fuel p acc) (n.index :: st.1, st.2)
        (st1.1, st1.2 ++ [n.index])) := by
  rw [rdfsVisit]
  by_cases hvis : n.index ∈ st.1
  · rw [if_pos hvis, if_pos hvis]
  · rw [if_neg hvis, if_neg hvis]
    rfl

/-- Invariant preservation for a single reverse-DFS visit: the invariant is
kept, the emitted list only grows, the visited set only grows, and the
visited node ends up emitted.  Acyclicity is supplied as a rank function
increasing along edges. -/
theorem rdfs_main (g : Graph) (hnd : (g.nodes.map Node.index).Nodup)
    (rank : Nat → Nat)
    (hrank : ∀ a ∈ g.nodes, ∀ b ∈ g.nodes, edgeB g a b = true → rank a.index < rank b.index) :
    ∀ (fuel : Nat) (n : Node) (st : List Nat × List Nat) (stack : List Nat),
      n ∈ g.nodes →
      unvisCount g st.1 < fuel →
      DfsInv g stack st →
      stackOk g stack →
      (stack = [] ∨ ∃ j js, stack = j :: js ∧ edgeIdx g n.index j) →
      DfsInv g stack (rdfsVisit g (fun _ _ => false) fuel n st) ∧
      (∃ d, (rdfsVisit g (fun _ _ => false) fuel n st).2 = st.2 ++ d) ∧
      (∀ i ∈ st.1, i ∈ (rdfsVisit g (fun _ _ => false) fuel n st).1) ∧
      n.index ∈ (rdfsVisit g (fun _ _ => false) fuel n st).2 := by
  intro fuel
  induction fuel with
  | zero =>
    intro n st stack _ hfuel
    exact absurd hfuel (Nat.not_lt_zero _)
  | succ fuel ih =>
    intro n st stack hn hfuel hinv hok hlink
    by_cases hvis : n.index ∈ st.1
    · rw [rdfsVisit_succ, if_pos hvis]
      refine ⟨hinv, ⟨[], (List.append_nil _).symm⟩, fun i hi => hi, ?_⟩
      rcases (hinv.visIff n.index).mp hvis with h1 | h1
      · exact h1
      · rcases hlink with hemp | ⟨j, js, hst, hedge⟩
        · rw [hemp] at h1; cases h1
        · rw [hst] at h1 hok
          exact absurd h1 (stack_not_mem hrank hok hedge)
    · have hstack' : stackOk g (n.index :: stack) := by
        rcases hlink with hemp | ⟨j, js, hst, hedge⟩
        · rw [hemp]; exact trivial
        · rw [hst] at hok ⊢
          exact ⟨hedge, hok⟩
      have hnstack : n.index ∉ stack := fun hmem =>
        hvis ((hinv.visIff n.index).mpr (Or.inr hmem))
      have hinv0 : DfsInv g (n.index :: stack) (n.index :: st.1, st.2) := by
        constructor
        · intro i
          constructor
          · intro hi
            rcases List.mem_cons.mp hi with h | h
            · exact Or.inr (h ▸ List.mem_cons_self _ _)
            · rcases (hinv.visIff i).mp h with h2 | h2
              · exact Or.inl h2
              · exact Or.inr (List.mem_cons_of_mem _ h2)
          · intro hi
            rcases hi with h | h
            · exact List.mem_cons_of_mem _ ((hinv.visIff i).mpr (Or.inl h))
            · rcases List.mem_cons.mp h with h2 | h2
              · exact h2 ▸ List.mem_cons_self _ _
              · exact List.mem_cons_of_mem _ ((hinv.visIff i).mpr (Or.inr h2))
        · exact hinv.outNodup
        · intro i hi hmem
          rcases List.mem_cons.mp hmem with h | h
          · exact hvis (h ▸ (hinv.visIff i).mpr (Or.inl hi))
          · exact hinv.outStackDisj i hi h
        · exact hinv.outG
        · exact hinv.sound
      have hps : ∀ p ∈ sortByIndex (predNodes g n), p ∈ g.nodes ∧ edgeIdx g p.index n.index := by
        intro p hp
        have hp' := (mem_sortByIndex _).mp hp
        exact ⟨predNodes_mem_nodes hp',
          ⟨p, predNodes_mem_nodes hp', n, hn, rfl, rfl, predNodes_edgeB hp'⟩⟩
      have foldLem : ∀ (ps : List Node) (stc : List Nat × List Nat),
          (∀ p ∈ ps, p ∈ g.nodes ∧ edgeIdx g p.index n.index) →
          unvisCount g stc.1 < fuel →
          DfsInv g (n.index :: stack) stc →
          DfsInv g (n.index :: stack)
            (ps.foldl (fun acc q => rdfsVisit g (fun _ _ => false) fuel q acc) stc) ∧
          (∃ d, (ps.foldl (fun acc q => rdfsVisit g (fun _ _ => false) fuel q acc) stc).2 =
            stc.2 ++ d) ∧
          (∀ i ∈ stc.1,
            i ∈ (ps.foldl (fun acc q => rdfsVisit g (fun _ _ => false) fuel q acc) stc).1) ∧
          (∀ p ∈ ps,
            p.index ∈ (ps.foldl (fun acc q => rdfsVisit g (fun _ _ => false) fuel q acc) stc).2) := by
        intro ps
        induction ps with
        | nil =>
          intro stc _ _ hinvc
          exact ⟨hinvc, ⟨[], (List.append_nil _).symm⟩, fun i hi => hi,
            fun p hp => absurd hp (List.not_mem_nil p)⟩
        | cons p ps' ihps =>
          intro stc hprops hfc hinvc
          rw [List.foldl_cons]
          have hcall := ih p stc (n.index :: stack) (hprops p (List.mem_cons_self _ _)).1 hfc
            hinvc hstack' (Or.inr ⟨n.index, stack, rfl, (hprops p (List.mem_cons_self _ _)).2⟩)
          obtain ⟨hinv1, ⟨d1, hd1⟩, hmono1, hpmem⟩ := hcall
          have hfc1 : unvisCount g (rdfsVisit g (fun _ _ => false) fuel p stc).1 < fuel :=
            Nat.lt_of_le_of_lt (unvisCount_mono hmono1) hfc
          have hrec := ihps (rdfsVisit g (fun _ _ => false) fuel p stc)
            (fun q hq => hprops q (List.mem_cons_of_mem _ hq)) hfc1 hinv1
          obtain ⟨hinv2, ⟨d2, hd2⟩, hmono2, hmem2⟩ := hrec
          refine ⟨hinv2, ⟨d1 ++ d2, by rw [hd2, hd1, List.append_assoc]⟩,
            fun i hi => hmono2 i (hmono1 i hi), ?_⟩
          intro q hq
          rcases List.mem_cons.mp hq with h | h
          · subst h
            rw [hd2]
            exact List.mem_append_left _ hpmem
          · exact hmem2 q h
      have hf0 : unvisCount g (n.index :: st.1) < fuel := by
        have hlt := unvisCount_cons_lt (g := g)
          (List.mem_map.mpr ⟨n, hn, rfl⟩) hvis
        omega
      set F := (sortByIndex (predNodes g n)).foldl
        (fun acc q => rdfsVisit g (fun _ _ => false) fuel q acc)
        (n.index :: st.1, st.2) with hF
      obtain ⟨hinv1, ⟨d, hd⟩, hmono1, hallp⟩ :=
        foldLem (sortByIndex (predNodes g n)) (n.index :: st.1, st.2) hps hf0 hinv0
      rw [rdfsVisit_succ, if_neg hvis]
      show DfsInv g stack (F.1, F.2 ++ [n.index]) ∧
        (∃ d2, F.2 ++ [n.index] = st.2 ++ d2) ∧
        (∀ i ∈ st.1, i ∈ F.1) ∧ n.index ∈ F.2 ++ [n.index]
      have hd' : F.2 = st.2 ++ d := hd
      refine ⟨?_, ⟨d ++ [n.index], by rw [hd', List.append_assoc]⟩,
        fun i hi => hmono1 i (List.mem_cons_of_mem _ hi),
        List.mem_append_right _ (List.mem_singleton.mpr rfl)⟩
      constructor
      · intro i
        constructor
        · intro hi
          rcases (hinv1.visIff i).mp hi with h | h
          · exact Or.inl (List.mem_append_left _ h)
          · rcases List.mem_cons.mp h with h2 | h2
            · exact Or.inl (List.mem_append_right _ (List.mem_singleton.mpr h2))
            · exact Or.inr h2
        · intro hi
          rcases hi with h | h
          · rcases List.mem_append.mp h with h2 | h2
            · exact (hinv1.visIff i).mpr (Or.inl h2)
            · exact (hinv1.visIff i).mpr
                (Or.inr (List.mem_cons.mpr (Or.inl (List.mem_singleton.mp h2))))
          · exact (hinv1.visIff i).mpr (Or.inr (List.mem_cons_of_mem _ h))
      · show (F.2 ++ [n.index]).Nodup
        rw [List.nodup_append]
        refine ⟨hinv1.outNodup, List.nodup_singleton _, ?_⟩
        intro a ha hb
        have hab := List.mem_singleton.mp hb
        subst hab
        exact hinv1.outStackDisj _ ha (List.mem_cons_self _ _)
      · intro i hi hmem
        rcases List.mem_append.mp hi with h | h
        · exact hinv1.outStackDisj i h (List.mem_cons_of_mem _ hmem)
        · have hin := List.mem_singleton.mp h
          subst hin
          exact hnstack hmem
      · intro i hi
        rcases List.mem_append.mp hi with h | h
        · exact hinv1.outG i h
        · exact ⟨n, hn, (List.mem_singleton.mp h).symm⟩
      · intro l1 i l2 hsplit b hb hbi e he
        have hsplit' : F.2 ++ [n.index] = l1 ++ i :: l2 := hsplit
        rcases append_singleton_split l1 F.2 i n.index l2 hsplit' with
          ⟨hL, hI, _⟩ | ⟨l2', _, hxs⟩
        · have hbn : b = n := index_inj hnd hb hn (hbi.trans hI)
          subst hbn
          rw [hL]
          have hsm : e.src.index ∈ (((inputEdges g b).map Edge.src).map Node.index) :=
            List.mem_map.mpr ⟨e.src, List.mem_map.mpr ⟨e, he, rfl⟩, rfl⟩
          obtain ⟨p, hp, hpi⟩ :=
            dedupByIndexAux_index_mem _ [] _ hsm (List.not_mem_nil _)
          have hmem := hallp p ((mem_sortByIndex _).mpr hp)
          rw [hpi] at hmem
          exact hmem
        · exact hinv1.sound l1 i l2' hxs b hb hbi e he

theorem unvisCount_le (g : Graph) (vis : List Nat) : unvisCount g vis ≤ g.nodes.length := by
  have h1 : unvisCount g vis ≤ (g.nodes.map Node.index).length :=
    List.length_filter_le _ _
  rw [List.length_map] at h1
  exact h1

/-- Invariant preservation across the fold over the DFS start nodes. -/
theorem rdfs_roots (g : Graph) (hnd : (g.nodes.map Node.index).Nodup)
    (rank : Nat → Nat)
    (hrank : ∀ a ∈ g.nodes, ∀ b ∈ g.nodes, edgeB g a b = true → rank a.index < rank b.index) :
    ∀ (roots : List Node) (st0 : List Nat × List Nat),
      (∀ r ∈ roots, r ∈ g.nodes) →
      DfsInv g [] st0 →
      DfsInv g []
        (roots.foldl (fun st n => rdfsVisit g (fun _ _ => false) (g.nodes.length + 1) n st) st0) ∧
      (∃ d, (roots.foldl
        (fun st n => rdfsVisit g (fun _ _ => false) (g.nodes.length + 1) n st) st0).2 =
          st0.2 ++ d) ∧
      (∀ r ∈ roots, r.index ∈ (roots.foldl
        (fun st n => rdfsVisit g (fun _ _ => false) (g.nodes.length + 1) n st) st0).2) := by
  intro roots
  induction roots with
  | nil =>
    intro st0 _ hinv0
    exact ⟨hinv0, ⟨[], (List.append_nil _).symm⟩, fun r hr => absurd hr (List.not_mem_nil r)⟩
  | cons r roots' ih =>
    intro st0 hmem hinv0
    rw [List.foldl_cons]
    have hfuel : unvisCount g st0.1 < g.nodes.length + 1 :=
      Nat.lt_succ_of_le (unvisCount_le g st0.1)
    have hcall := rdfs_main g hnd rank hrank (g.nodes.length + 1) r st0 []
      (hmem r (List.mem_cons_self _ _)) hfuel hinv0 trivial (Or.inl rfl)
    obtain ⟨hinv1, ⟨d1, hd1⟩, _, hrmem⟩ := hcall
    have hrec := ih (rdfsVisit g (fun _ _ => false) (g.nodes.length + 1) r st0)
      (fun q hq => hmem q (List.mem_cons_of_mem _ hq)) hinv1
    obtain ⟨hinv2, ⟨d2, hd2⟩, hmem2⟩ := hrec
    refine ⟨hinv2, ⟨d1 ++ d2, by rw [hd2, hd1, List.append_assoc]⟩, ?_⟩
    intro q hq
    rcases List.mem_cons.mp hq with h | h
    · subst h
      rw [hd2]
      exact List.mem_append_left _ hrmem
    · exact hmem2 q h

/-- The base reverse-DFS order is duplicate-free, mentions only graph nodes,
is topologically sound (each node's input-edge sources appear strictly
earlier), and is complete (every node of an acyclic graph appears). -/
theorem baseTopoOrder_facts (g : Graph) (hnd : (g.nodes.map Node.index).Nodup)
    (rank : Nat → Nat)
    (hrank : ∀ a ∈ g.nodes, ∀ b ∈ g.nodes, edgeB g a b = true → rank a.index < rank b.index) :
    (baseTopoOrder g).Nodup ∧
    (∀ i ∈ baseTopoOrder g, ∃ n ∈ g.nodes, n.index = i) ∧
    (∀ l1 i l2, baseTopoOrder g = l1 ++ i :: l2 → ∀ b ∈ g.nodes, b.index = i →
      ∀ e ∈ inputEdges g b, e.src.index ∈ l1) ∧
    (∀ n ∈ g.nodes, n.index ∈ baseTopoOrder g) := by
  have hinit : DfsInv g [] (([] : List Nat), ([] : List Nat)) := by
    constructor
    · intro i; simp
    · exact List.nodup_nil
    · intro i hi; cases hi
    · intro i hi; cases hi
    · intro l1 i l2 hsplit
      exact absurd hsplit.symm (List.append_ne_nil_of_right_ne_nil _ (List.cons_ne_nil _ _))
  have hroots : ∀ p ∈ sortByIndex (leafNodes g), p ∈ g.nodes := by
    intro p hp
    have := (mem_sortByIndex _).mp hp
    exact (List.mem_filter.mp this).1
  obtain ⟨hinv, _, hleafmem⟩ := rdfs_roots g hnd rank hrank (sortByIndex (leafNodes g))
    ([], []) hroots hinit
  have hbase : baseTopoOrder g = ((sortByIndex (leafNodes g)).foldl
      (fun st n => rdfsVisit g (fun _ _ => false) (g.nodes.length + 1) n st) ([], [])).2 := rfl
  refine ⟨hbase ▸ hinv.outNodup, hbase ▸ hinv.outG, hbase ▸ hinv.sound, ?_⟩
  have hclosure : ∀ b ∈ g.nodes, b.index ∈ baseTopoOrder g →
      ∀ e ∈ inputEdges g b, e.src.index ∈ baseTopoOrder g := by
    intro b hb hbin e he
    obtain ⟨l1, l2, hsplit⟩ := List.append_of_mem hbin
    have := (hbase ▸ hinv.sound) l1 b.index l2 hsplit b hb rfl e he
    rw [hsplit]
    exact List.mem_append_left _ this
  have hBmax : ∀ n ∈ g.nodes, rank n.index < (g.nodes.map fun n => rank n.index).foldr max 0 + 1 := by
    intro n hn
    have hle : ∀ (l : List Nat), ∀ x ∈ l, x ≤ l.foldr max 0 := by
      intro l
      induction l with
      | nil => intro x hx; cases hx
      | cons a t iht =>
        intro x hx
        rcases List.mem_cons.mp hx with h | h
        · rw [List.foldr_cons, h]
          exact Nat.le_max_left _ _
        · rw [List.foldr_cons]
          exact Nat.le_trans (iht x h) (Nat.le_max_right _ _)
    have hmm : rank n.index ∈ (g.nodes.map fun n => rank n.index) :=
      List.mem_map.mpr ⟨n, hn, rfl⟩
    have := hle _ _ hmm
    omega
  have hmain : ∀ (k : Nat) (n : Node), n ∈ g.nodes →
      (g.nodes.map fun n => rank n.index).foldr max 0 + 1 - rank n.index ≤ k →
      n.index ∈ baseTopoOrder g := by
    intro k
    induction k with
    | zero =>
      intro n hn hk
      have := hBmax n hn
      omega
    | succ k ihk =>
      intro n hn hk
      cases hleaf : isLeaf g n with
      | true =>
        have hnl : n ∈ leafNodes g := List.mem_filter.mpr ⟨hn, hleaf⟩
        exact hbase ▸ hleafmem n ((mem_sortByIndex _).mpr hnl)
      | false =>
        cases houtE : outputEdges g n with
        | nil =>
          rw [isLeaf, houtE] at hleaf
          cases hleaf
        | cons e rest =>
          have he : e ∈ outputEdges g n := houtE ▸ List.mem_cons_self _ _
          have hdst : e.dst ∈ g.nodes := outputEdges_dst_mem he
          obtain ⟨e', he', hsrc⟩ := outputEdges_input_edge he
          have hedge : edgeB g n e.dst = true := by
            rw [edgeB, List.any_eq_true]
            exact ⟨e', he', by rw [hsrc]; simp⟩
          have hrlt := hrank n hn e.dst hdst hedge
          have hdlt := hBmax e.dst hdst
          have hdin : e.dst.index ∈ baseTopoOrder g := ihk e.dst hdst (by omega)
          have := hclosure e.dst hdst hdin e' he'
          rw [hsrc] at this
          exact this
  intro n hn
  exact hmain _ n hn (Nat.le_refl _)

theorem mem_foldr_append_of {α β : Type} (f : α → List β) :
    ∀ (l : List α) (m : α) (e : β), m ∈ l → e ∈ f m →
      e ∈ l.foldr (fun m acc => f m ++ acc) [] := by
  intro l
  induction l with
  | nil => intro m e hm; cases hm
  | cons a t ih =>
    intro m e hm he
    rcases List.mem_cons.mp hm with h | h
    · exact List.mem_append_left _ (h ▸ he)
    · exact List.mem_append_right _ (ih m e h he)

theorem inputEdge_to_outputEdge {g : Graph} {n P : Node} {e : Edge}
    (hn : n ∈ g.nodes) (he : e ∈ inputEdges g n) (hP : e.src.index = P.index) :
    ∃ oe ∈ outputEdges g P, oe.dst = n := by
  obtain ⟨p, hp, hf⟩ := List.mem_filterMap.mp he
  cases hq : producerOf g p.2 with
  | none => rw [hq] at hf; cases hf
  | some m =>
    rw [hq] at hf
    have hem : (⟨m, p.1, p.2⟩ : Edge) = e := Option.some.inj hf
    have hms : m = e.src := congrArg Edge.src hem
    refine ⟨⟨n, p.1, p.2⟩, ?_, rfl⟩
    rw [outputEdges_eq]
    refine mem_foldr_append_of _ g.nodes n _ hn ?_
    refine List.mem_filterMap.mpr ⟨p, hp, ?_⟩
    rw [hq]
    show (if (m.index == P.index) = true then some (⟨n, p.1, p.2⟩ : OEdge) else none) =
      some (⟨n, p.1, p.2⟩ : OEdge)
    rw [if_pos (by rw [hms]; exact beq_iff_eq.mpr hP)]

/-! ### The shape/size-children map -/

theorem childrenOf_nil (p : Nat) : childrenOf [] p = [] := rfl

theorem childrenOf_cons (q1 : Nat) (q2 : List Nat) (rest : List (Nat × List Nat)) (p : Nat) :
    childrenOf ((q1, q2) :: rest) p = if q1 == p then q2 else childrenOf rest p := by
  by_cases hq : q1 = p
  · have hqb : (fun (r : Nat × List Nat) => r.1 == p) (q1, q2) = true := beq_iff_eq.mpr hq
    unfold childrenOf
    rw [@List.find?_cons_of_pos _ (fun (r : Nat × List Nat) => r.1 == p) (q1, q2) rest hqb,
      if_pos (beq_iff_eq.mpr hq)]
  · have hqb : ¬((fun (r : Nat × List Nat) => r.1 == p) (q1, q2) = true) := by
      simp only [beq_iff_eq]
      exact hq
    unfold childrenOf
    rw [@List.find?_cons_of_neg _ (fun (r : Nat × List Nat) => r.1 == p) (q1, q2) rest hqb,
      if_neg (by simpa using hq)]

theorem addChild_childrenOf : ∀ (m : List (Nat × List Nat)) (p0 c p : Nat),
    childrenOf (addChild m p0 c) p =
      if p = p0 then childrenOf m p ++ [c] else childrenOf m p := by
  intro m
  induction m with
  | nil =>
    intro p0 c p
    rw [show addChild [] p0 c = [(p0, [c])] from rfl, childrenOf_cons]
    by_cases hp : p = p0
    · subst hp
      rw [if_pos (beq_iff_eq.mpr rfl), if_pos rfl, childrenOf_nil, List.nil_append]
    · rw [if_neg (show ¬(p0 == p) = true from by simpa using fun h : p0 = p => hp h.symm),
        if_neg hp]
  | cons q rest ih =>
    obtain ⟨q1, q2⟩ := q
    intro p0 c p
    by_cases hq0 : q1 = p0
    · have hb : (q1 == p0) = true := beq_iff_eq.mpr hq0
      rw [show addChild ((q1, q2) :: rest) p0 c =
          (if q1 == p0 then (q1, q2 ++ [c]) :: rest else (q1, q2) :: addChild rest p0 c)
        from rfl, if_pos hb, childrenOf_cons, childrenOf_cons]
      by_cases hp : p = p0
      · have hq1p : (q1 == p) = true := beq_iff_eq.mpr (by rw [hq0, hp])
        rw [if_pos hq1p, if_pos hp, if_pos hq1p]
      · have hq1p : ¬(q1 == p) = true := by
          simp only [beq_iff_eq]
          intro hc
          exact hp (by rw [← hc, hq0])
        rw [if_neg hq1p, if_neg hp, if_neg hq1p]
    · have hb : ¬(q1 == p0) = true := by
        simp only [beq_iff_eq]
        exact hq0
      rw [show addChild ((q1, q2) :: rest) p0 c =
          (if q1 == p0 then (q1, q2 ++ [c]) :: rest else (q1, q2) :: addChild rest p0 c)
        from rfl, if_neg hb, childrenOf_cons, childrenOf_cons]
      by_cases hq1p : q1 = p
      · have hp : ¬(p = p0) := by
          intro hc
          exact hq0 (by rw [hq1p, hc])
        rw [if_pos (beq_iff_eq.mpr hq1p), if_neg hp, if_pos (beq_iff_eq.mpr hq1p)]
      · have hb2 : ¬(q1 == p) = true := by
          simp only [beq_iff_eq]
          exact hq1p
        rw [if_neg hb2, ih, if_neg hb2]

/-- The qualification test of the shape/size-children map: shape/size
op-type, at least one input edge, recorded parent `p`. -/
def sspPred (g : Graph) (p : Nat) (n : Node) : Bool :=
  isShapeSize n && !(inputEdges g n).isEmpty && (shapeSizeParent g n == some p)

theorem shapeSizeParents_char (g : Graph) (p : Nat) :
    childrenOf (shapeSizeParents g) p = (g.nodes.filter (sspPred g p)).map Node.index := by
  have gen : ∀ (l : List Node) (m : List (Nat × List Nat)),
      childrenOf (l.foldl (fun m n =>
        if isShapeSize n && !(inputEdges g n).isEmpty then
          match shapeSizeParent g n with
          | some q => addChild m q n.index
          | none => m
        else m) m) p = childrenOf m p ++ ((l.filter (sspPred g p)).map Node.index) := by
    intro l
    induction l with
    | nil =>
      intro m
      rw [List.foldl_nil, List.filter_nil, List.map_nil, List.append_nil]
    | cons n t ih =>
      intro m
      rw [List.foldl_cons]
      cases hc : (isShapeSize n && !(inputEdges g n).isEmpty) with
      | false =>
        have hstep : (if false = true then
            match shapeSizeParent g n with
            | some q => addChild m q n.index
            | none => m
          else m) = m := by
          rw [if_neg Bool.false_ne_true]
        rw [hstep, ih, List.filter_cons_of_neg (by
          show ¬(sspPred g p n) = true
          unfold sspPred
          rw [hc, Bool.false_and]
          exact Bool.false_ne_true)]
      | true =>
        cases hssp : shapeSizeParent g n with
        | none =>
          have hstep : (if true = true then
              match (none : Option Nat) with
              | some q => addChild m q n.index
              | none => m
            else m) = m := by
            rw [if_pos rfl]
          rw [hstep, ih, List.filter_cons_of_neg (by
            show ¬(sspPred g p n) = true
            unfold sspPred
            rw [hssp, hc, Bool.true_and]
            exact Bool.false_ne_true)]
        | some q =>
          have hstep : (if true = true then
              match some q with
              | some q => addChild m q n.index
              | none => m
            else m) = addChild m q n.index := by
            rw [if_pos rfl]
          rw [hstep, ih, addChild_childrenOf]
          by_cases hqp : p = q
          · subst hqp
            rw [if_pos rfl, List.filter_cons_of_pos (by
              show (sspPred g p n) = true
              unfold sspPred
              rw [hssp, hc, Bool.true_and]
              exact beq_self_eq_true _), List.map_cons, List.append_assoc]
            rfl
          · rw [if_neg hqp, List.filter_cons_of_neg (by
              show ¬(sspPred g p n) = true
              unfold sspPred
              rw [hssp, hc, Bool.true_and]
              rw [beq_eq_false_iff_ne.mpr (fun h => hqp (Option.some.inj h).symm)]
              exact Bool.false_ne_true)]
  exact gen g.nodes []

theorem children_node {g : Graph} {p c : Nat}
    (hc : c ∈ childrenOf (shapeSizeParents g) p) :
    ∃ n ∈ g.nodes, n.index = c ∧ isShapeSize n = true ∧
      (inputEdges g n).isEmpty = false ∧ shapeSizeParent g n = some p := by
  rw [shapeSizeParents_char] at hc
  obtain ⟨n, hn, hni⟩ := List.mem_map.mp hc
  have hf := List.mem_filter.mp hn
  have h2 := hf.2
  unfold sspPred at h2
  rw [Bool.and_eq_true, Bool.and_eq_true] at h2
  obtain ⟨⟨hss, hne⟩, hbeq⟩ := h2
  exact ⟨n, hf.1, hni, hss, (by simpa using hne), eq_of_beq hbeq⟩

theorem children_unique {g : Graph} (hnd : (g.nodes.map Node.index).Nodup) {p p' c : Nat}
    (h1 : c ∈ childrenOf (shapeSizeParents g) p)
    (h2 : c ∈ childrenOf (shapeSizeParents g) p') : p = p' := by
  obtain ⟨n, hn, hni, _, _, hsp⟩ := children_node h1
  obtain ⟨n', hn', hni', _, _, hsp'⟩ := children_node h2
  have hnn : n = n' := index_inj hnd hn hn' (hni.trans hni'.symm)
  subst hnn
  exact Option.some.inj (hsp.symm.trans hsp')

theorem children_nodup {g : Graph} (hnd : (g.nodes.map Node.index).Nodup) (p : Nat) :
    (childrenOf (shapeSizeParents g) p).Nodup := by
  rw [shapeSizeParents_char]
  exact List.Nodup.sublist ((g.nodes.filter_sublist).map _) hnd

theorem children_parent_edge {g : Graph} {p c : Nat}
    (hc : c ∈ childrenOf (shapeSizeParents g) p) :
    ∃ (nc : Node) (e : Edge), nc ∈ g.nodes ∧ nc.index = c ∧ isShapeSize nc = true ∧
      (inputEdges g nc).head? = some e ∧ e ∈ inputEdges g nc ∧ e.src.index = p := by
  obtain ⟨n, hn, hni, hss, _, hsp⟩ := children_node hc
  unfold shapeSizeParent at hsp
  cases hh : (inputEdges g n).head? with
  | none => rw [hh] at hsp; cases hsp
  | some e =>
    rw [hh] at hsp
    have hpe : e.src.index = p := Option.some.inj hsp
    refine ⟨n, e, hn, hni, hss, hh, ?_, hpe⟩
    exact List.mem_of_mem_head? (Option.mem_def.mpr hh)

theorem inputEdges_len_le (g : Graph) (n : Node) :
    (inputEdges g n).length ≤ n.inputDefs.length := by
  unfold inputEdges
  have h1 := List.length_filterMap_le
    (fun p => (producerOf g p.2).map fun m => (⟨m, p.1, p.2⟩ : Edge)) n.inputDefs.enum
  rw [List.enum_length] at h1
  exact h1

theorem child_single_input {g : Graph} {n : Node}
    (hlen : n.inputDefs.length ≤ 1) {e : Edge} (hh : (inputEdges g n).head? = some e) :
    inputEdges g n = [e] := by
  have hle := inputEdges_len_le g n
  cases hie : inputEdges g n with
  | nil => rw [hie] at hh; cases hh
  | cons a t =>
    rw [hie, List.head?_cons] at hh
    have ha : a = e := Option.some.inj hh
    rw [hie, List.length_cons] at hle
    have hl2 : t.length = 0 := by omega
    rw [List.length_eq_zero] at hl2
    rw [ha, hl2]

/-- Every input edge of a recorded shape/size child comes from its recorded
parent (the child has at most one input). -/
theorem child_all_preds {g : Graph} (hnd : (g.nodes.map Node.index).Nodup)
    (hss1 : ∀ n ∈ g.nodes, isShapeSize n = true → n.inputDefs.length ≤ 1)
    {p c : Nat} (hc : c ∈ childrenOf (shapeSizeParents g) p) :
    ∀ b ∈ g.nodes, b.index = c → ∀ e ∈ inputEdges g b, e.src.index = p := by
  intro b hb hbi e he
  obtain ⟨n, hn, hni, hss, _, hsp⟩ := children_node hc
  have hbn : b = n := index_inj hnd hb hn (hbi.trans hni.symm)
  subst hbn
  unfold shapeSizeParent at hsp
  cases hh : (inputEdges g b).head? with
  | none => rw [hh] at hsp; cases hsp
  | some e0 =>
    rw [hh] at hsp
    have hpe : e0.src.index = p := Option.some.inj hsp
    have hsingle := child_single_input (hss1 b hb hss) hh
    rw [hsingle] at he
    have hee : e = e0 := List.mem_singleton.mp he
    rw [hee, hpe]

/-- Invariant of the training hoist pass: the output is duplicate-free,
contains every processed base-order element, contains only processed
elements and their recorded children, keeps every non-child processed
element immediately followed by its recorded children, respects all
producer-before-consumer constraints, and is a concatenation of
parent-children blocks. -/
structure HInv (g : Graph) (done acc : List Nat) : Prop where
  nodup : acc.Nodup
  compl : ∀ y ∈ done, y ∈ acc
  prov : ∀ y ∈ acc, y ∈ done ∨ ∃ x ∈ done, y ∈ childrenOf (shapeSizeParents g) x
  blocks : ∀ x ∈ done, (∀ q, x ∉ childrenOf (shapeSizeParents g) q) →
    ∃ l1 l2, acc = l1 ++ x :: (childrenOf (shapeSizeParents g) x ++ l2)
  topo : ∀ l1 i l2, acc = l1 ++ i :: l2 → ∀ b ∈ g.nodes, b.index = i →
    ∀ e ∈ inputEdges g b, e.src.index ∈ l1
  shape : ∃ xs : List Nat,
    acc = (xs.map fun x => x :: childrenOf (shapeSizeParents g) x).join

theorem hoist_main (g : Graph) (hnd : (g.nodes.map Node.index).Nodup)
    (rank : Nat → Nat)
    (hrank : ∀ a ∈ g.nodes, ∀ b ∈ g.nodes, edgeB g a b = true → rank a.index < rank b.index)
    (hss1 : ∀ n ∈ g.nodes, isShapeSize n = true → n.inputDefs.length ≤ 1)
    (orig : List Nat) (hond : orig.Nodup)
    (hsound : ∀ l1 i l2, orig = l1 ++ i :: l2 → ∀ b ∈ g.nodes, b.index = i →
      ∀ e ∈ inputEdges g b, e.src.index ∈ l1) :
    ∀ (rem done acc : List Nat), orig = done ++ rem → HInv g done acc →
      HInv g (done ++ rem) (hoistAux (shapeSizeParents g) rem acc acc) := by
  intro rem
  induction rem with
  | nil =>
    intro done acc _ hinv
    rw [List.append_nil]
    exact hinv
  | cons x rem' ih =>
    intro done acc horig hinv
    have hond' : (done ++ x :: rem').Nodup := horig ▸ hond
    have hxdone : x ∉ done := by
      rcases List.nodup_append.mp hond' with ⟨_, _, hdisj⟩
      intro hxd
      exact hdisj hxd (List.mem_cons_self _ _)
    have hcast : done ++ x :: rem' = (done ++ [x]) ++ rem' :=
      (List.append_assoc done [x] rem').symm
    have horig' : orig = (done ++ [x]) ++ rem' := by rw [horig, hcast]
    by_cases hx : x ∈ acc
    · rw [show hoistAux (shapeSizeParents g) (x :: rem') acc acc =
          hoistAux (shapeSizeParents g) rem' acc acc from by
        rw [hoistAux, if_pos hx]]
      have hinv' : HInv g (done ++ [x]) acc := by
        constructor
        · exact hinv.nodup
        · intro y hy
          rcases List.mem_append.mp hy with h | h
          · exact hinv.compl y h
          · exact (List.mem_singleton.mp h) ▸ hx
        · intro y hy
          rcases hinv.prov y hy with h | ⟨x', hx', hc⟩
          · exact Or.inl (List.mem_append_left _ h)
          · exact Or.inr ⟨x', List.mem_append_left _ hx', hc⟩
        · intro x0 hx0 hnc
          rcases List.mem_append.mp hx0 with h | h
          · exact hinv.blocks x0 h hnc
          · have hx0x := List.mem_singleton.mp h
            subst hx0x
            rcases hinv.prov x0 hx with hdone | ⟨q, _, hcq⟩
            · exact hinv.blocks x0 hdone hnc
            · exact absurd hcq (hnc q)
        · exact hinv.topo
        · exact hinv.shape
      rw [hcast]
      exact ih (done ++ [x]) acc horig' hinv'
    · rw [show hoistAux (shapeSizeParents g) (x :: rem') acc acc =
          hoistAux (shapeSizeParents g) rem'
            (acc ++ x :: childrenOf (shapeSizeParents g) x)
            (acc ++ x :: childrenOf (shapeSizeParents g) x) from by
        rw [hoistAux, if_neg hx]]
      have hcnotacc : ∀ c ∈ childrenOf (shapeSizeParents g) x, c ∉ acc := by
        intro c hcs hacc
        rcases hinv.prov c hacc with hcdone | ⟨x', hx', hcx'⟩
        · obtain ⟨d1, d2, hdsplit⟩ := List.append_of_mem hcdone
          have hos : orig = d1 ++ c :: (d2 ++ (x :: rem')) := by
            rw [horig, hdsplit]
            simp [List.append_assoc]
          obtain ⟨nc, e0, hnc, hnci, _, _, he0, hsrc⟩ := children_parent_edge hcs
          have hmem := hsound d1 c (d2 ++ (x :: rem')) hos nc hnc hnci e0 he0
          rw [hsrc] at hmem
          exact hxdone (by rw [hdsplit]; exact List.mem_append_left _ hmem)
        · have hxx : x' = x := children_unique hnd hcx' hcs
          exact hxdone (hxx ▸ hx')
      have hxnotcs : x ∉ childrenOf (shapeSizeParents g) x := by
        intro hxc
        obtain ⟨nc, e0, hnc, hnci, _, _, he0, hsrc⟩ := children_parent_edge hxc
        have hsrcmem : e0.src ∈ g.nodes := inputEdges_src_mem he0
        have hedge : edgeB g e0.src nc = true := by
          rw [edgeB, List.any_eq_true]
          exact ⟨e0, he0, by simp⟩
        have hlt := hrank e0.src hsrcmem nc hnc hedge
        rw [hsrc, hnci] at hlt
        exact Nat.lt_irrefl _ hlt
      have hinv' : HInv g (done ++ [x]) (acc ++ x :: childrenOf (shapeSizeParents g) x) := by
        constructor
        · rw [List.nodup_append]
          refine ⟨hinv.nodup, List.nodup_cons.mpr ⟨hxnotcs, children_nodup hnd x⟩, ?_⟩
          intro a ha hb
          rcases List.mem_cons.mp hb with h | h
          · exact hx (h ▸ ha)
          · exact hcnotacc a h ha
        · intro y hy
          rcases List.mem_append.mp hy with h | h
          · exact List.mem_append_left _ (hinv.compl y h)
          · exact List.mem_append_right _
              ((List.mem_singleton.mp h) ▸ List.mem_cons_self _ _)
        · intro y hy
          rcases List.mem_append.mp hy with h | h
          · rcases hinv.prov y h with h2 | ⟨x', hx', hc⟩
            · exact Or.inl (List.mem_append_left _ h2)
            · exact Or.inr ⟨x', List.mem_append_left _ hx', hc⟩
          · rcases List.mem_cons.mp h with h2 | h2
            · exact Or.inl (List.mem_append_right _ (h2 ▸ List.mem_singleton.mpr rfl))
            · exact Or.inr ⟨x, List.mem_append_right _ (List.mem_singleton.mpr rfl), h2⟩
        · intro x0 hx0 hnc
          rcases List.mem_append.mp hx0 with h | h
          · obtain ⟨l1, l2, hdec⟩ := hinv.blocks x0 h hnc
            refine ⟨l1, l2 ++ x :: childrenOf (shapeSizeParents g) x, ?_⟩
            rw [hdec]
            simp [List.append_assoc]
          · have hx0x := List.mem_singleton.mp h
            subst hx0x
            exact ⟨acc, [], by rw [List.append_nil]⟩
        · intro l1 i l2 hsplit b hb hbi e he
          rcases List.append_eq_append_iff.mp hsplit with
            ⟨a', hl1, hrest⟩ | ⟨c', hacc, hil2⟩
          · cases a' with
            | nil =>
              rw [List.append_nil] at hl1
              have hrest' : x = i ∧ childrenOf (shapeSizeParents g) x = l2 := by
                simpa using hrest
              have hix : i = x := hrest'.1.symm
              subst hix
              have hmem := hsound done i rem' horig b hb hbi e he
              rw [hl1]
              exact hinv.compl _ hmem
            | cons a0 a'' =>
              have hrest' : x = a0 ∧ childrenOf (shapeSizeParents g) x = a'' ++ i :: l2 := by
                simpa using hrest
              obtain ⟨ha0, hcs⟩ := hrest'
              have hics : i ∈ childrenOf (shapeSizeParents g) x := by
                rw [hcs]
                exact List.mem_append_right _ (List.mem_cons_self _ _)
              have hsrcx := child_all_preds hnd hss1 hics b hb hbi e he
              rw [hl1, hsrcx, ← ha0]
              exact List.mem_append_right _ (List.mem_cons_self _ _)
          · cases c' with
            | nil =>
              rw [List.append_nil] at hacc
              have hil2' : i = x ∧ l2 = childrenOf (shapeSizeParents g) x := by
                simpa using hil2
              have hmem := hsound done x rem' horig b hb (hbi.trans hil2'.1) e he
              rw [← hacc]
              exact hinv.compl _ hmem
            | cons c0 c'' =>
              obtain ⟨hc0, _⟩ := List.cons.inj (by simpa using hil2)
              have haccs : acc = l1 ++ i :: c'' := by rw [hacc, hc0]
              exact hinv.topo l1 i c'' haccs b hb hbi e he
        · obtain ⟨xs, hxs⟩ := hinv.shape
          refine ⟨xs ++ [x], ?_⟩
          rw [hxs]
          simp
      rw [hcast]
      exact ih (done ++ [x]) _ horig' hinv'

theorem hoistAux_skip (ssp : List (Nat × List Nat)) :
    ∀ (cs rem v acc : List Nat), (∀ c ∈ cs, c ∈ v) →
      hoistAux ssp (cs ++ rem) v acc = hoistAux ssp rem v acc := by
  intro cs
  induction cs with
  | nil => intro rem v acc _; rw [List.nil_append]
  | cons c cs' ihc =>
    intro rem v acc hcv
    rw [List.cons_append, hoistAux, if_pos (hcv c (List.mem_cons_self _ _))]
    exact ihc rem v acc (fun c' hc' => hcv c' (List.mem_cons_of_mem _ hc'))

theorem hoist_fix (ssp : List (Nat × List Nat)) : ∀ (xs v : List Nat),
    ((xs.map fun x => x :: childrenOf ssp x).join).Nodup →
    (∀ y ∈ (xs.map fun x => x :: childrenOf ssp x).join, y ∉ v) →
    hoistAux ssp ((xs.map fun x => x :: childrenOf ssp x).join) v v =
      v ++ (xs.map fun x => x :: childrenOf ssp x).join := by
  intro xs
  induction xs with
  | nil =>
    intro v _ _
    simp [hoistAux]
  | cons x xs' ihx =>
    intro v hnodup hdisj
    have hj : (((x :: xs').map fun x => x :: childrenOf ssp x).join)
        = x :: (childrenOf ssp x ++ ((xs'.map fun x => x :: childrenOf ssp x).join)) := by
      simp
    rw [hj] at hnodup hdisj ⊢
    rw [hoistAux, if_neg (hdisj x (List.mem_cons_self _ _))]
    rw [hoistAux_skip ssp (childrenOf ssp x) _ _ _ (fun c hc =>
      List.mem_append_right _ (List.mem_cons_of_mem _ hc))]
    have hnodup' := List.nodup_cons.mp hnodup
    have hnd2 := List.nodup_append.mp hnodup'.2
    rw [ihx (v ++ x :: childrenOf ssp x) hnd2.2.1 ?_]
    · simp
    · intro y hy
      intro hymem
      rcases List.mem_append.mp hymem with h | h
      · exact hdisj y (List.mem_cons_of_mem _ (List.mem_append_right _ hy)) h
      · rcases List.mem_cons.mp h with h2 | h2
        · exact hnodup'.1 (h2 ▸ List.mem_append_right _ hy)
        · exact hnd2.2.2 h2 hy

theorem filter_eq_singleton {α : Type} (p : α → Bool) :
    ∀ (l : List α) (a : α), l.Nodup → a ∈ l → p a = true →
    (∀ x ∈ l, p x = true → x = a) → l.filter p = [a] := by
  intro l
  induction l with
  | nil => intro a _ ha; cases ha
  | cons b t ihl =>
    intro a hnd ha hpa hall
    rcases List.mem_cons.mp ha with hab | hat
    · have hba : b = a := hab.symm
      subst hba
      rw [List.filter_cons_of_pos hpa]
      have hnil : t.filter p = [] := by
        rw [List.filter_eq_nil_iff]
        intro x hx hpx
        have hxb : x = b := hall x (List.mem_cons_of_mem _ hx) hpx
        exact (List.nodup_cons.mp hnd).1 (hxb ▸ hx)
      rw [hnil]
    · by_cases hpb : p b = true
      · have hba : b = a := hall b (List.mem_cons_self _ _) hpb
        exact absurd (hba ▸ hat) (List.nodup_cons.mp hnd).1
      · rw [List.filter_cons_of_neg (by simpa using hpb)]
        exact ihl a (List.nodup_cons.mp hnd).2 hat hpa
          (fun x hx hpx => hall x (List.mem_cons_of_mem _ hx) hpx)

theorem indexOf_append_not_mem {a : Nat} : ∀ (l1 l2 : List Nat), a ∉ l1 →
    (l1 ++ l2).indexOf a = l1.length + l2.indexOf a := by
  intro l1
  induction l1 with
  | nil => intro l2 _; rw [List.nil_append, List.length_nil, Nat.zero_add]
  | cons x t ihl =>
    intro l2 hna
    have hxa : (x == a) = false := beq_eq_false_iff_ne.mpr
      (fun h => hna (h ▸ List.mem_cons_self _ _))
    rw [List.cons_append, List.indexOf_cons, hxa, cond_false,
      ihl l2 (fun h => hna (List.mem_cons_of_mem _ h)), List.length_cons]
    omega

theorem indexOf_append_mem {a : Nat} : ∀ (l1 l2 : List Nat), a ∈ l1 →
    (l1 ++ l2).indexOf a = l1.indexOf a := by
  intro l1
  induction l1 with
  | nil => intro l2 h; cases h
  | cons x t ihl =>
    intro l2 ha
    cases hxa : (x == a) with
    | true =>
      rw [List.cons_append, List.indexOf_cons, hxa, cond_true, List.indexOf_cons, hxa, cond_true]
    | false =>
      have hat : a ∈ t := by
        rcases List.mem_cons.mp ha with h | h
        · exact absurd (h ▸ hxa) (by simp)
        · exact h
      rw [List.cons_append, List.indexOf_cons, hxa, cond_false, List.indexOf_cons, hxa,
        cond_false, ihl l2 hat]

theorem indexOf_adjacent {l : List Nat} (hnd : l.Nodup) {a b : Nat} {l1 l2 : List Nat}
    (h : l = l1 ++ a :: b :: l2) : l.indexOf b = l.indexOf a + 1 := by
  subst h
  rcases List.nodup_append.mp hnd with ⟨_, hnd2, hdisj⟩
  have hna : a ∉ l1 := fun hm => hdisj hm (List.mem_cons_self _ _)
  have hnb : b ∉ l1 := fun hm =>
    hdisj hm (List.mem_cons_of_mem _ (List.mem_cons_self _ _))
  have hab : (a == b) = false := beq_eq_false_iff_ne.mpr (fun hc =>
    (List.nodup_cons.mp hnd2).1 (hc ▸ List.mem_cons_self _ _))
  have h1 : List.indexOf a (a :: b :: l2) = 0 := by
    rw [List.indexOf_cons, beq_self_eq_true, cond_true]
  have h2 : List.indexOf b (a :: b :: l2) = 1 := by
    rw [List.indexOf_cons, hab, cond_false, List.indexOf_cons, beq_self_eq_true, cond_true]
  rw [indexOf_append_not_mem l1 _ hna, indexOf_append_not_mem l1 _ hnb, h1, h2]

theorem indexOf_lt_of_topo (l : List Nat) (hnd : l.Nodup) (a b : Nat)
    (hb : b ∈ l) (hab : ∀ l1 l2, l = l1 ++ b :: l2 → a ∈ l1) :
    l.indexOf a < l.indexOf b := by
  obtain ⟨l1, l2, hsplit⟩ := List.append_of_mem hb
  have ha1 : a ∈ l1 := hab l1 l2 hsplit
  subst hsplit
  rcases List.nodup_append.mp hnd with ⟨_, _, hdisj⟩
  have hbn1 : b ∉ l1 := fun hm => hdisj hm (List.mem_cons_self _ _)
  rw [indexOf_append_not_mem l1 _ hbn1, indexOf_append_mem l1 _ ha1, List.indexOf_cons,
    beq_self_eq_true, cond_true]
  have hlt : l1.indexOf a < l1.length := List.indexOf_lt_length.mpr ha1
  omega

/-- The full-run invariant of the training-adjusted default order. -/
theorem hoistInv_final (g : Graph) (hnd : (g.nodes.map Node.index).Nodup)
    (rank : Nat → Nat)
    (hrank : ∀ a ∈ g.nodes, ∀ b ∈ g.nodes, edgeB g a b = true → rank a.index < rank b.index)
    (hss1 : ∀ n ∈ g.nodes, isShapeSize n = true → n.inputDefs.length ≤ 1) :
    HInv g (baseTopoOrder g) (nodesInTopologicalOrder g) := by
  obtain ⟨hbnd, hbg, hbsound, hbcompl⟩ := baseTopoOrder_facts g hnd rank hrank
  have hinit : HInv g [] [] := by
    constructor
    · exact List.nodup_nil
    · intro y hy; cases hy
    · intro y hy; cases hy
    · intro x hx; cases hx
    · intro l1 i l2 hsplit
      exact absurd hsplit.symm (List.append_ne_nil_of_right_ne_nil _ (List.cons_ne_nil _ _))
    · exact ⟨[], rfl⟩
  have hrun := hoist_main g hnd rank hrank hss1 (baseTopoOrder g) hbnd hbsound
    (baseTopoOrder g) [] [] (List.nil_append _).symm hinit
  rw [List.nil_append] at hrun
  exact hrun

/-- C4: In the training-adjusted default order, for a producer with exactly
one consumer, that consumer being a shape/size node (and, as the amendment
requires, the producer itself not being one), the consumer's position is
the producer's position plus one; re-running the hoist pass leaves the
order unchanged; and the order respects every producer-before-consumer
edge.  Source lines 252-278. -/
theorem c4_hoist_adjacent_idempotent_order_preserving
    (g : Graph) (hnd : (g.nodes.map Node.index).Nodup)
    (rank : Nat → Nat)
    (hrank : ∀ a ∈ g.nodes, ∀ b ∈ g.nodes, edgeB g a b = true → rank a.index < rank b.index)
    (hss1 : ∀ n ∈ g.nodes, isShapeSize n = true → n.inputDefs.length ≤ 1)
    (P S : Node) (hP : P ∈ g.nodes) (hS : S ∈ g.nodes)
    (hSshape : isShapeSize S = true)
    (hPnotshape : isShapeSize P = false)
    (hcons : ∀ e ∈ outputEdges g P, e.dst.index = S.index)
    (hSP : ∃ e ∈ inputEdges g S, e.src.index = P.index) :
    ((nodesInTopologicalOrder g).indexOf S.index
        = (nodesInTopologicalOrder g).indexOf P.index + 1) ∧
    hoistAux (shapeSizeParents g) (nodesInTopologicalOrder g) [] []
        = nodesInTopologicalOrder g ∧
    (∀ a ∈ g.nodes, ∀ b ∈ g.nodes, edgeB g a b = true →
      (nodesInTopologicalOrder g).indexOf a.index
        < (nodesInTopologicalOrder g).indexOf b.index) := by
  obtain ⟨hbnd, hbg, hbsound, hbcompl⟩ := baseTopoOrder_facts g hnd rank hrank
  have hout := hoistInv_final g hnd rank hrank hss1
  have hle : (inputEdges g S).length ≤ 1 :=
    Nat.le_trans (inputEdges_len_le g S) (hss1 S hS hSshape)
  obtain ⟨e, he, hesrc⟩ := hSP
  refine ⟨?_, ?_, ?_⟩
  · -- adjacency
    cases hie : inputEdges g S with
    | nil =>
      rw [hie] at he
      cases he
    | cons a0 t =>
      have ht : t = [] := by
        rw [hie, List.length_cons] at hle
        have : t.length = 0 := by omega
        exact List.length_eq_zero.mp this
      have hea : e = a0 := by
        rw [hie, ht] at he
        exact List.mem_singleton.mp he
      have hssp : shapeSizeParent g S = some P.index := by
        unfold shapeSizeParent
        rw [hie, List.head?_cons, Option.map_some', ← hea, hesrc]
      have hpredS : sspPred g P.index S = true := by
        unfold sspPred
        rw [hSshape, hssp, hie]
        simp
      have huniq : ∀ n ∈ g.nodes, sspPred g P.index n = true → n = S := by
        intro n hn hpred
        unfold sspPred at hpred
        rw [Bool.and_eq_true, Bool.and_eq_true] at hpred
        obtain ⟨⟨_, _⟩, hbeq⟩ := hpred
        have hnp : shapeSizeParent g n = some P.index := eq_of_beq hbeq
        unfold shapeSizeParent at hnp
        cases hh : (inputEdges g n).head? with
        | none => rw [hh] at hnp; cases hnp
        | some e0 =>
          rw [hh, Option.map_some'] at hnp
          have hsrc0 : e0.src.index = P.index := Option.some.inj hnp
          have he0 : e0 ∈ inputEdges g n := List.mem_of_mem_head? (Option.mem_def.mpr hh)
          obtain ⟨oe, hoe, hoedst⟩ := inputEdge_to_outputEdge hn he0 hsrc0
          have hoS := hcons oe hoe
          rw [hoedst] at hoS
          exact index_inj hnd hn hS hoS
      have hchild : childrenOf (shapeSizeParents g) P.index = [S.index] := by
        rw [shapeSizeParents_char,
          filter_eq_singleton (sspPred g P.index) g.nodes S (List.Nodup.of_map _ hnd)
            hS hpredS huniq, List.map_cons, List.map_nil]
      have hPnc : ∀ q, P.index ∉ childrenOf (shapeSizeParents g) q := by
        intro q hq
        obtain ⟨n, hn, hni, hnss, _, _⟩ := children_node hq
        have hnP : n = P := index_inj hnd hn hP hni
        rw [hnP, hPnotshape] at hnss
        cases hnss
      obtain ⟨l1, l2, hdec⟩ := hout.blocks P.index (hbcompl P hP) hPnc
      rw [hchild] at hdec
      exact indexOf_adjacent hout.nodup hdec
  · -- idempotence
    obtain ⟨xs, hxs⟩ := hout.shape
    rw [hxs]
    rw [hoist_fix (shapeSizeParents g) xs [] (hxs ▸ hout.nodup)
      (fun y _ h => absurd h (List.not_mem_nil y)), List.nil_append]
  · -- order preservation
    intro a ha b hb hedge
    refine indexOf_lt_of_topo _ hout.nodup _ _ (hout.compl _ (hbcompl b hb)) ?_
    intro l1 l2 hsplit
    rw [edgeB, List.any_eq_true] at hedge
    obtain ⟨e', he', heq⟩ := hedge
    have hmem := hout.topo l1 b.index l2 hsplit b hb rfl e' he'
    exact (beq_iff_eq.mp heq) ▸ hmem

/-- C4 counterexample graph: `W(0)` produces `p`; `Shape(1)`, `W2(2)` and
`Shape(3)` consume `p`; `Shape(4)` consumes `Shape(3)`'s output `s1` and is
its only consumer. -/
def nW0 : Node := ⟨0, "W", 0, [], [], ["p"], []⟩

def nSa1 : Node := ⟨1, "Shape", 0, [], ["p"], ["sa"], []⟩

def nX2 : Node := ⟨2, "W2", 0, [], ["p"], ["x"], []⟩

def nS13 : Node := ⟨3, "Shape", 0, [], ["p"], ["s1"], []⟩

def nS24 : Node := ⟨4, "Shape", 0, [], ["s1"], ["s2"], []⟩

def cexH : Graph := ⟨[nW0, nSa1, nX2, nS13, nS24], [], []⟩

/-- C4: counterexample to the claim as stated.  In `cexH`, node 3 is a
producer with exactly one shape/size-only consumer (node 4) and no other
consumers, the graph is well formed (distinct indices, acyclic along
increasing indices, shape/size nodes single-input), yet the training-adjusted
default order is `[0, 1, 3, 2, 4]`: node 4 sits at position 4 while node 3
sits at position 2, so the consumer is *not* at the producer's position plus
one.  The hoist moved node 3 (itself a Shape node, a recorded child of node
0) next to node 0, and `W2(2)` was emitted between 3 and 4 — refuting the
unconditional adjacency; source lines 260-276. -/
theorem c4_shape_chain_not_adjacent :
    ((cexH.nodes.map Node.index).Nodup ∧
      (∀ a ∈ cexH.nodes, ∀ b ∈ cexH.nodes, edgeB cexH a b = true → a.index < b.index) ∧
      (∀ n ∈ cexH.nodes, isShapeSize n = true → n.inputDefs.length ≤ 1)) ∧
    isShapeSize nS24 = true ∧
    (∀ e ∈ outputEdges cexH nS13, e.dst.index = nS24.index) ∧
    (∃ e ∈ inputEdges cexH nS24, e.src.index = nS13.index) ∧
    nodesInTopologicalOrder cexH = [0, 1, 3, 2, 4] ∧
    ¬((nodesInTopologicalOrder cexH).indexOf nS24.index
        = (nodesInTopologicalOrder cexH).indexOf nS13.index + 1) := by
  refine ⟨⟨by decide, by decide, by decide⟩, rfl, by decide, by decide, by decide, ?_⟩
  decide

def hoA : Node := ⟨0, "W", 0, [], [], ["a"], []⟩

def hoB : Node := ⟨1, "Shape", 0, [], ["a"], ["b"], []⟩

def hoG : Graph := ⟨[hoA, hoB], [], []⟩

theorem c4_hoist_witness :
    ((nodesInTopologicalOrder hoG).indexOf hoB.index
        = (nodesInTopologicalOrder hoG).indexOf hoA.index + 1) ∧
    hoistAux (shapeSizeParents hoG) (nodesInTopologicalOrder hoG) [] []
        = nodesInTopologicalOrder hoG ∧
    (∀ a ∈ hoG.nodes, ∀ b ∈ hoG.nodes, edgeB hoG a b = true →
      (nodesInTopologicalOrder hoG).indexOf a.index
        < (nodesInTopologicalOrder hoG).indexOf b.index) :=
  c4_hoist_adjacent_idempotent_order_preserving hoG (by decide) (fun i => i)
    (by decide) (by decide) hoA hoB (by decide) (by decide) rfl rfl (by decide) (by decide)
